import Mathlib

/-
Shallow embedding of the incremental change-detection and synchronization
engine of the flight-price pipeline:
  * src/dags/utils/incremental_loader.py (class IncrementalDataLoader)
  * src/dags/flight_pipeline_dag.py (transfer_to_postgres_incremental,
    FULL_LOAD_THRESHOLD)
Pure functions become Lean functions; the PostgreSQL target store becomes an
explicit state (PgState) threaded through the apply operations; statement
execution inside the transaction is modelled with an explicit fault-injection
parameter (failAt) so that rollback/commit behaviour is provable; timestamps
are an abstract Nat clock; numeric rendering of Python floats is abstracted
(a Rat carries the value).
-/

namespace FlightSync

/-- Scalar values as they travel through pandas rows and SQL parameters in the
Python source.  `nan` is the float NaN, `na` the pandas NA/NaT family, `none`
the Python None; `float` carries an exact rational in place of an IEEE value
(no claim here depends on float rounding). -/
inductive PyVal where
  | none
  | nan
  | na
  | str (s : String)
  | int (n : Int)
  | bool (b : Bool)
  | float (q : Rat)
  deriving DecidableEq, Repr

/-- Python `str()` applied to a scalar, as used by `calculate_record_hash`.
Rendering of numbers is abstracted but stays injective per constructor. -/
def PyVal.pyStr : PyVal → String
  | .none => "None"
  | .nan => "nan"
  | .na => "<NA>"
  | .str s => s
  | .int n => toString n
  | .bool b => if b then "True" else "False"
  | .float q => toString q

/-- A pandas row: an association list from column name to value. -/
abbrev PyRow := List (String × PyVal)

/-- Model of `row.get(key, default)` on a pandas Series: the first binding of
the key, or the default when the key is absent. -/
def rowGetD (r : PyRow) (k : String) (d : PyVal) : PyVal :=
  match r.find? (fun p => p.1 == k) with
  | some p => p.2
  | Option.none => d

/-- Embedding of `IncrementalDataLoader._safe_value` (incremental_loader.py
lines 212-230): None, float NaN and pandas NA map to None, everything else is
returned unchanged. -/
def safeValue : PyVal → PyVal
  | .none => .none
  | .nan => .none
  | .na => .none
  | v => v

/- ===================== MD5 (hashlib.md5) ===================== -/

/-- UTF-8 encoding of one character, as `record_string.encode()` produces. -/
def utf8Bytes (c : Char) : List Nat :=
  let n := c.toNat
  if n < 128 then [n]
  else if n < 2048 then [192 + n / 64, 128 + n % 64]
  else if n < 65536 then [224 + n / 4096, 128 + n / 64 % 64, 128 + n % 64]
  else [240 + n / 262144, 128 + n / 4096 % 64, 128 + n / 64 % 64, 128 + n % 64]

/-- Byte sequence of a string (UTF-8). -/
def strBytes (s : String) : List Nat := (s.data.map utf8Bytes).flatten

/-- Truncation to a 32-bit word. -/
def w32 (x : Nat) : Nat := x % 4294967296

/-- Bitwise complement within 32 bits (argument assumed < 2^32). -/
def wnot (x : Nat) : Nat := 4294967295 - w32 x

/-- Left rotation of a 32-bit word. -/
def rotl32 (x n : Nat) : Nat := x % 2 ^ (32 - n) * 2 ^ n + x / 2 ^ (32 - n)

/-- MD5 per-round additive constants. -/
def md5K : List Nat := [
  0xd76aa478, 0xe8c7b756, 0x242070db, 0xc1bdceee,
  0xf57c0faf, 0x4787c62a, 0xa8304613, 0xfd469501,
  0x698098d8, 0x8b44f7af, 0xffff5bb1, 0x895cd7be,
  0x6b901122, 0xfd987193, 0xa679438e, 0x49b40821,
  0xf61e2562, 0xc040b340, 0x265e5a51, 0xe9b6c7aa,
  0xd62f105d, 0x02441453, 0xd8a1e681, 0xe7d3fbc8,
  0x21e1cde6, 0xc33707d6, 0xf4d50d87, 0x455a14ed,
  0xa9e3e905, 0xfcefa3f8, 0x676f02d9, 0x8d2a4c8a,
  0xfffa3942, 0x8771f681, 0x6d9d6122, 0xfde5380c,
  0xa4beea44, 0x4bdecfa9, 0xf6bb4b60, 0xbebfbc70,
  0x289b7ec6, 0xeaa127fa, 0xd4ef3085, 0x04881d05,
  0xd9d4d039, 0xe6db99e5, 0x1fa27cf8, 0xc4ac5665,
  0xf4292244, 0x432aff97, 0xab9423a7, 0xfc93a039,
  0x655b59c3, 0x8f0ccc92, 0xffeff47d, 0x85845dd1,
  0x6fa87e4f, 0xfe2ce6e0, 0xa3014314, 0x4e0811a1,
  0xf7537e82, 0xbd3af235, 0x2ad7d2bb, 0xeb86d391]

/-- MD5 per-round left-rotation amounts. -/
def md5S : List Nat := [
  7, 12, 17, 22, 7, 12, 17, 22, 7, 12, 17, 22, 7, 12, 17, 22,
  5, 9, 14, 20, 5, 9, 14, 20, 5, 9, 14, 20, 5, 9, 14, 20,
  4, 11, 16, 23, 4, 11, 16, 23, 4, 11, 16, 23, 4, 11, 16, 23,
  6, 10, 15, 21, 6, 10, 15, 21, 6, 10, 15, 21, 6, 10, 15, 21]

/-- MD5 round mixing function, by round index. -/
def md5F (i b c d : Nat) : Nat :=
  if i < 16 then Nat.lor (Nat.land b c) (Nat.land (wnot b) d)
  else if i < 32 then Nat.lor (Nat.land d b) (Nat.land (wnot d) c)
  else if i < 48 then Nat.xor b (Nat.xor c d)
  else Nat.xor c (Nat.lor b (wnot d))

/-- MD5 message-word index, by round index. -/
def md5G (i : Nat) : Nat :=
  if i < 16 then i
  else if i < 32 then (5 * i + 1) % 16
  else if i < 48 then (3 * i + 5) % 16
  else 7 * i % 16

/-- Group a byte list into little-endian 32-bit words. -/
def leWords : List Nat → List Nat
  | b0 :: b1 :: b2 :: b3 :: rest =>
      (b0 + b1 * 256 + b2 * 65536 + b3 * 16777216) :: leWords rest
  | _ => []

/-- One MD5 round on the (a, b, c, d) state. -/
def md5Round (m : List Nat) (st : Nat × Nat × Nat × Nat) (i : Nat) :
    Nat × Nat × Nat × Nat :=
  let a := st.1
  let b := st.2.1
  let c := st.2.2.1
  let d := st.2.2.2
  let f := w32 (md5F i b c d + a + md5K.getD i 0 + m.getD (md5G i) 0)
  (d, w32 (b + rotl32 f (md5S.getD i 0)), b, c)

/-- Process one 64-byte chunk. -/
def md5Chunk (st : Nat × Nat × Nat × Nat) (chunk : List Nat) :
    Nat × Nat × Nat × Nat :=
  let m := leWords chunk
  let r := (List.range 64).foldl (md5Round m) st
  (w32 (st.1 + r.1), w32 (st.2.1 + r.2.1),
   w32 (st.2.2.1 + r.2.2.1), w32 (st.2.2.2 + r.2.2.2))

/-- Little-endian bytes of a 64-bit length field. -/
def le8 (n : Nat) : List Nat :=
  [n % 256, n / 256 % 256, n / 65536 % 256, n / 16777216 % 256,
   n / 4294967296 % 256, n / 1099511627776 % 256,
   n / 281474976710656 % 256, n / 72057594037927936 % 256]

/-- Little-endian bytes of a 32-bit word. -/
def le4 (n : Nat) : List Nat :=
  [n % 256, n / 256 % 256, n / 65536 % 256, n / 16777216 % 256]

/-- MD5 padding: 0x80, zeros to 56 mod 64, then the 64-bit bit length. -/
def md5Pad (msg : List Nat) : List Nat :=
  msg ++ [128] ++ List.replicate ((119 - msg.length % 64) % 64) 0
      ++ le8 (msg.length * 8 % 18446744073709551616)

/-- Split a list into chunks of `n + 1` elements; `fuel` bounds the recursion
and is always instantiated with the list length (structural recursion keeps
the definition kernel-reducible). -/
def chunksBy (n : Nat) : Nat → List α → List (List α)
  | 0, _ => []
  | _, [] => []
  | fuel + 1, x :: rest =>
      (x :: rest).take (n + 1) :: chunksBy n fuel ((x :: rest).drop (n + 1))

/-- Split a list into chunks of `n` elements (`n ≥ 1` in all uses), mirroring
`range(0, len(data), chunk_size)` slicing in the source. -/
def chunksOf (n : Nat) (l : List α) : List (List α) := chunksBy (n - 1) l.length l

/-- MD5 digest of a byte sequence, as 16 bytes. -/
def md5Bytes (msg : List Nat) : List Nat :=
  let r := (chunksOf 64 (md5Pad msg)).foldl md5Chunk
      (0x67452301, 0xefcdab89, 0x98badcfe, 0x10325476)
  le4 r.1 ++ le4 r.2.1 ++ le4 r.2.2.1 ++ le4 r.2.2.2

/-- Lowercase hex digit. -/
def hexDigit (n : Nat) : Char :=
  if n < 10 then Char.ofNat (48 + n) else Char.ofNat (87 + n)

/-- Lowercase hex rendering of a byte list, two digits per byte. -/
def hexOfBytes : List Nat → List Char
  | [] => []
  | b :: rest => hexDigit (b / 16 % 16) :: hexDigit (b % 16) :: hexOfBytes rest

/-- Embedding of `hashlib.md5(s.encode()).hexdigest()`. -/
def md5Hex (s : String) : String := String.mk (hexOfBytes (md5Bytes (strBytes s)))

/- ===================== Records and fingerprints ===================== -/

/-- A record together with its fingerprint, i.e. a DataFrame row carrying a
`record_hash` column (computed for incoming rows, stored for active rows). -/
structure HashedRow where
  row : PyRow
  hash : String
  deriving DecidableEq, Repr

/-- The eight identity fields projected by `calculate_record_hash`
(incremental_loader.py lines 63-72), in source order. -/
def keyFields : List String :=
  ["airline", "source_code", "destination_code", "departure_datetime",
   "base_fare_bdt", "total_fare_bdt", "travel_class", "booking_source"]

/-- Embedding of `IncrementalDataLoader.calculate_record_hash`: `str()` of the
eight key fields (an absent field defaults to the empty string), joined with
`'|'`, then MD5 hex digest. -/
def calculateRecordHash (r : PyRow) : String :=
  md5Hex (String.intercalate "|"
    (keyFields.map (fun f => (rowGetD r f (.str "")).pyStr)))

/-- The incoming DataFrame after
`new_df['record_hash'] = new_df.apply(self.calculate_record_hash, axis=1)`. -/
def hashedDf (incoming : List PyRow) : List HashedRow :=
  incoming.map (fun r => ⟨r, calculateRecordHash r⟩)

/- ===================== Target store state ===================== -/

/-- One row of `bronze.validated_flights`: its stored fingerprint, the
`is_active` flag, the `ingestion_timestamp` (abstract clock) and the remaining
columns. -/
structure FlightRow where
  hash : String
  active : Bool
  ingestionTs : Nat
  fields : PyRow
  deriving DecidableEq, Repr

/-- One row of `bronze.data_load_metadata`.  Columns a given INSERT does not
name are `Option.none` (the full-load path names only four columns). -/
structure LoadEvent where
  recordsInserted : Nat
  recordsUpdated : Option Nat
  recordsDeleted : Option Nat
  recordsUnchanged : Option Nat
  loadType : String
  changePercentage : Rat
  executionTimeSeconds : Nat
  deriving DecidableEq, Repr

/-- The PostgreSQL target store: the Bronze flights table and the audit
metadata table. -/
structure PgState where
  flights : List FlightRow
  metadata : List LoadEvent
  deriving DecidableEq, Repr

/-- Result rows of the `load_existing_data_from_postgres` query: key fields
plus stored `record_hash` of every row with `is_active = TRUE`. -/
def activeRows (db : PgState) : List HashedRow :=
  (db.flights.filter (fun r => r.active)).map (fun r => ⟨r.fields, r.hash⟩)

/-- Embedding of `IncrementalDataLoader.load_existing_data_from_postgres`
(incremental_loader.py lines 100-124): the query either returns rows or raises;
every exception is caught (`except Exception`), a warning is logged, and an
empty DataFrame is returned. -/
def loadExistingDataFromPostgres
    (queryRes : Except String (List HashedRow)) : List HashedRow :=
  match queryRes with
  | .ok rows => rows
  | .error _ => []

/- ===================== Change detection ===================== -/

/-- Output dictionary of `detect_changes`. -/
structure ChangeSet where
  newRecords : List HashedRow
  deletedRecords : List HashedRow
  unchangedRecords : List HashedRow
  changePercentage : Rat
  deriving DecidableEq, Repr

/-- The loader's `self.load_stats` dictionary. -/
structure LoadStats where
  new : Nat
  updated : Nat
  deleted : Nat
  unchanged : Nat
  deriving DecidableEq, Repr

/-- `load_stats` as initialized in `IncrementalDataLoader.__init__`. -/
def initLoadStats : LoadStats := ⟨0, 0, 0, 0⟩

/-- Embedding of `IncrementalDataLoader.detect_changes` (incremental_loader.py
lines 126-210): hash the incoming rows, read the existing active rows (first
branch if that DataFrame is empty), then classify by set arithmetic on hashes
and compute the change percentage; `self.load_stats` is updated only on the
non-empty branch.  Returns the changes dictionary and the updated stats. -/
def detectChanges (stats : LoadStats) (incoming : List PyRow)
    (queryRes : Except String (List HashedRow)) : ChangeSet × LoadStats :=
  let newDf := hashedDf incoming
  let existingDf := loadExistingDataFromPostgres queryRes
  if existingDf.isEmpty then
    (⟨newDf, [], [], 100⟩, stats)
  else
    let existingHashes : Finset String := (existingDf.map (·.hash)).toFinset
    let newHashes : Finset String := (newDf.map (·.hash)).toFinset
    let newRecordHashes := newHashes \ existingHashes
    let newRecords := newDf.filter (fun r => decide (r.hash ∈ newRecordHashes))
    let deletedRecordHashes := existingHashes \ newHashes
    let deletedRecords :=
      existingDf.filter (fun r => decide (r.hash ∈ deletedRecordHashes))
    let unchangedHashes := existingHashes ∩ newHashes
    let unchangedRecords :=
      newDf.filter (fun r => decide (r.hash ∈ unchangedHashes))
    let changePercentage : Rat :=
      if 0 < incoming.length then
        (((newRecords.length + deletedRecords.length : Nat) : Rat)
          / (incoming.length : Rat)) * 100
      else 0
    (⟨newRecords, deletedRecords, unchangedRecords, changePercentage⟩,
     { stats with new := newRecords.length, deleted := deletedRecords.length,
                  unchanged := unchangedRecords.length })

/- ===================== Insert value preparation ===================== -/

/-- The explicit column list of the bulk INSERT statements (identical in
`apply_incremental_load` and `apply_full_load`). -/
def columnsList : List String :=
  ["airline", "source_code", "source_name", "destination_code",
   "destination_name", "departure_datetime", "arrival_datetime",
   "duration_hrs", "stopovers", "aircraft_type", "travel_class",
   "booking_source", "base_fare_bdt", "tax_surcharge_bdt", "total_fare_bdt",
   "seasonality", "days_before_departure", "is_valid", "validation_errors",
   "mysql_raw_id", "mysql_validated_id", "mysql_loaded_at",
   "record_hash", "ingestion_timestamp", "is_active"]

/-- Python truthiness, as `astype(bool)` applies it to the `is_valid`
column. -/
def astypeBool : PyVal → PyVal
  | .none => .bool false
  | .nan => .bool true
  | .na => .bool true
  | .str s => .bool (s != "")
  | .int n => .bool (n != 0)
  | .bool b => .bool b
  | .float q => .bool (q != 0)

/-- One row as prepared for insertion: the `is_valid` column cast to bool and
the tracking columns `record_hash`, `ingestion_timestamp`, `is_active`
appended. -/
def prepareNewRow (now : Nat) (r : HashedRow) : PyRow :=
  r.row.map (fun p => if p.1 = "is_valid" then (p.1, astypeBool p.2) else p)
    ++ [("record_hash", .str r.hash), ("ingestion_timestamp", .int now),
        ("is_active", .bool true)]

/-- The flattened `values` parameter list of one INSERT: per row and column,
`self._safe_value(row.get(col))`. -/
def buildInsertValues (rows : List PyRow) : List PyVal :=
  (rows.map (fun r => columnsList.map (fun c => safeValue (rowGetD r c .none)))).flatten

/-- The target-store row an insert produces for one hashed record. -/
def rowOfHashed (now : Nat) (r : HashedRow) : FlightRow :=
  ⟨r.hash, true, now, prepareNewRow now r⟩

/- ===================== Transactional execution ===================== -/

/-- Tags for the statements the apply operations execute, in order to observe
where commit points lie. -/
inductive StmtTag where
  | beginTxn
  | truncateTbl
  | insertChunk
  | softDelete
  | metaInsert
  | commitTxn
  deriving DecidableEq, Repr

/-- In-flight state of one run's connection: the uncommitted pending state,
the index of the next statement (for fault injection), the trace of executed
statements and the accumulated SQL parameters of executed statements. -/
structure TxnState where
  pending : PgState
  idx : Nat
  trace : List StmtTag
  params : List PyVal
  deriving Repr

/-- Result of executing a prefix of the transaction: success, or the raised
error together with the connection state at that moment. -/
inductive ExecR where
  | ok (st : TxnState)
  | fail (st : TxnState) (msg : String)

/-- Execute one statement.  The injected fault `failAt = some st.idx` makes
exactly this call raise; otherwise the effect is applied to the pending
(uncommitted) state. -/
def execStmt (failAt : Option Nat) (tag : StmtTag) (eff : PgState → PgState)
    (ps : List PyVal) (st : TxnState) : ExecR :=
  if failAt = some st.idx then
    .fail { st with idx := st.idx + 1 }
      ("statement " ++ toString st.idx ++ " raised")
  else
    .ok { pending := eff st.pending, idx := st.idx + 1,
          trace := st.trace ++ [tag], params := st.params ++ ps }

/-- The metadata INSERT sits in its own `try/except` that degrades a failure
to a warning: on the injected fault nothing is appended and execution
continues. -/
def execMeta (failAt : Option Nat) (ev : LoadEvent) (ps : List PyVal)
    (st : TxnState) : TxnState :=
  if failAt = some st.idx then { st with idx := st.idx + 1 }
  else
    { pending := { st.pending with metadata := st.pending.metadata ++ [ev] },
      idx := st.idx + 1, trace := st.trace ++ [.metaInsert],
      params := st.params ++ ps }

/-- Effect of one chunk INSERT on the pending state. -/
def insertEffect (now : Nat) (c : List HashedRow) (db : PgState) : PgState :=
  { db with flights := db.flights ++ c.map (rowOfHashed now) }

/-- Effect of the soft-delete UPDATE on one row: `SET is_active = FALSE,
ingestion_timestamp = now WHERE record_hash IN hs AND is_active = TRUE`. -/
def softDel (now : Nat) (hs : List String) (r : FlightRow) : FlightRow :=
  if r.hash ∈ hs ∧ r.active = true then
    { r with active := false, ingestionTs := now }
  else r

/-- Effect of the soft-delete UPDATE on the pending state. -/
def softDeleteEffect (now : Nat) (hs : List String) (db : PgState) : PgState :=
  { db with flights := db.flights.map (softDel now hs) }

/-- Sequencing inside the outer `try`: a raised error skips the rest. -/
def ExecR.chain (r : ExecR) (f : TxnState → ExecR) : ExecR :=
  match r with
  | .ok st => f st
  | .fail st e => .fail st e

/-- Execute the chunked insert loop. -/
def execChunks (failAt : Option Nat) (now : Nat) (st : TxnState) :
    List (List HashedRow) → ExecR
  | [] => .ok st
  | c :: cs =>
    (execStmt failAt .insertChunk (insertEffect now c)
      (buildInsertValues (c.map (prepareNewRow now))) st).chain
      (fun st' => execChunks failAt now st' cs)

/-- The audit row of the incremental path's metadata INSERT: all four counts
from `self.load_stats`, the load type, the detector's change percentage and
the execution time. -/
def incrementalEvent (stats : LoadStats) (loadType : String) (pct : Rat)
    (execTime : Nat) : LoadEvent :=
  ⟨stats.new, some stats.updated, some stats.deleted, some stats.unchanged,
   loadType, pct, execTime⟩

/-- SQL parameters of the incremental metadata INSERT. -/
def metaParams (stats : LoadStats) (loadType : String) (pct : Rat)
    (execTime : Nat) : List PyVal :=
  [.int stats.new, .int stats.updated, .int stats.deleted,
   .int stats.unchanged, .str loadType, .float pct, .int execTime]

/-- The audit row of the full-load path's metadata INSERT: only
`records_inserted`, `load_type`, `change_percentage` and
`execution_time_seconds` are named. -/
def fullEvent (n execTime : Nat) : LoadEvent :=
  ⟨n, Option.none, Option.none, Option.none, "FULL", 100, execTime⟩

/-- Outcome of one apply operation: the committed state after the connection
closes, the executed-statement trace, the re-raised error if any, and all SQL
parameters passed to executed statements. -/
structure ApplyOutcome where
  db : PgState
  trace : List StmtTag
  err : Option String
  params : List PyVal
  deriving Repr

/-- End of the run: on success the COMMIT has published the pending state; on
failure `conn.rollback()` discards it (the committed state is still the
pre-run one) and the error is re-raised. -/
def finishOutcome (db : PgState) (r : ExecR) : ApplyOutcome :=
  match r with
  | .ok st => ⟨st.pending, st.trace, Option.none, st.params⟩
  | .fail st e => ⟨db, st.trace, some e, st.params⟩

/-- Embedding of `IncrementalDataLoader.apply_incremental_load`
(incremental_loader.py lines 232-368): BEGIN; chunked inserts of the new
records; the set-based soft-delete UPDATE (only when there are deleted
records); the metadata INSERT in its own try/except; COMMIT.  Any uncaught
failure rolls back and re-raises.  The source's `if not
changes['new_records'].empty` guard only skips logging and DataFrame
preparation: with zero new records the chunk loop body never runs, so the
guard is semantically transparent and the chunk loop is entered directly. -/
def applyIncrementalLoad (db : PgState) (changes : ChangeSet)
    (loadType : String) (stats : LoadStats) (now execTime : Nat)
    (failAt : Option Nat) : ApplyOutcome :=
  finishOutcome db <|
    (execStmt failAt .beginTxn id [] ⟨db, 0, [], []⟩).chain fun st1 =>
    (execChunks failAt now st1 (chunksOf 500 changes.newRecords)).chain fun st2 =>
    (if changes.deletedRecords.isEmpty then ExecR.ok st2
     else execStmt failAt .softDelete
       (softDeleteEffect now (changes.deletedRecords.map (·.hash)))
       (PyVal.int now :: (changes.deletedRecords.map (·.hash)).map PyVal.str)
       st2).chain fun st3 =>
    execStmt failAt .commitTxn id []
      (execMeta failAt
        (incrementalEvent stats loadType changes.changePercentage execTime)
        (metaParams stats loadType changes.changePercentage execTime) st3)

/-- Embedding of `IncrementalDataLoader.apply_full_load`
(incremental_loader.py lines 370-485): BEGIN; TRUNCATE; compute hashes and
tracking columns for the whole dataset; chunked inserts of everything; the
metadata INSERT in its own try/except; COMMIT.  Any uncaught failure rolls
back and re-raises. -/
def applyFullLoad (db : PgState) (df : List PyRow) (now execTime : Nat)
    (failAt : Option Nat) : ApplyOutcome :=
  finishOutcome db <|
    (execStmt failAt .beginTxn id [] ⟨db, 0, [], []⟩).chain fun st1 =>
    (execStmt failAt .truncateTbl (fun s => { s with flights := [] }) []
      st1).chain fun st2 =>
    (execChunks failAt now st2 (chunksOf 500 (hashedDf df))).chain fun st3 =>
    execStmt failAt .commitTxn id []
      (execMeta failAt (fullEvent df.length execTime)
        [.int df.length, .str "FULL", .float 100, .int execTime] st3)

/-- Number of apply-phase statements (BEGIN, insert chunks, soft delete) of an
incremental load; the metadata INSERT has index `stmtCountInc` and COMMIT has
index `stmtCountInc + 1`. -/
def stmtCountInc (changes : ChangeSet) : Nat :=
  1 + (chunksOf 500 changes.newRecords).length
    + (if changes.deletedRecords.isEmpty then 0 else 1)

/-- Number of apply-phase statements (BEGIN, TRUNCATE, insert chunks) of a
full load; the metadata INSERT has index `stmtCountFull` and COMMIT has index
`stmtCountFull + 1`. -/
def stmtCountFull (df : List PyRow) : Nat :=
  2 + (chunksOf 500 (hashedDf df)).length

/- ===================== Pipeline task ===================== -/

/-- `FULL_LOAD_THRESHOLD = 50.0` (flight_pipeline_dag.py line 82). -/
def FULL_LOAD_THRESHOLD : Rat := 50

/-- The load-strategy decision of `transfer_to_postgres_incremental`
(flight_pipeline_dag.py line 1129): full load iff the change percentage
strictly exceeds the threshold. -/
def selectLoadStrategy (changeRatio threshold : Rat) : String :=
  if changeRatio > threshold then "FULL" else "INCREMENTAL"

/-- Observable outcome of one `transfer_to_postgres_incremental` run: the
target store, the XCom metrics (load type, inserted/deleted counts from
`loader.load_stats`, change percentage), the statement trace and the raised
error if any. -/
structure RunResult where
  db : PgState
  loadType : String
  recordsInserted : Nat
  recordsDeleted : Nat
  changePercentage : Rat
  trace : List StmtTag
  err : Option String
  deriving Repr

/-- Embedding of the pure core of `transfer_to_postgres_incremental`
(flight_pipeline_dag.py lines 1082-1199): an empty incoming set short-circuits
with NONE and zero metrics; otherwise detect changes against the active rows,
select the strategy by threshold, and run the matching apply operation. -/
def transferToPostgresIncremental (db : PgState) (incoming : List PyRow)
    (now execTime : Nat) (failAt : Option Nat) : RunResult :=
  if incoming.isEmpty then
    ⟨db, "NONE", 0, 0, 0, [], Option.none⟩
  else
    let res := detectChanges initLoadStats incoming (Except.ok (activeRows db))
    let changes := res.1
    let stats := res.2
    if changes.changePercentage > FULL_LOAD_THRESHOLD then
      let out := applyFullLoad db incoming now execTime failAt
      ⟨out.db, "FULL", stats.new, stats.deleted, changes.changePercentage,
       out.trace, out.err⟩
    else
      let out := applyIncrementalLoad db changes "INCREMENTAL" stats now
          execTime failAt
      ⟨out.db, "INCREMENTAL", stats.new, stats.deleted,
       changes.changePercentage, out.trace, out.err⟩

/- ===================== Derived notions used by the claims ===================== -/

/-- At most one active row per fingerprint. -/
def activeUnique (db : PgState) : Prop :=
  ((db.flights.filter (fun r => r.active)).map (·.hash)).Nodup

/-- The full effect of a successful incremental apply on the flights table:
all new rows appended (actively), then the soft delete applied. -/
def appliedIncrementalFlights (db : PgState) (changes : ChangeSet)
    (now : Nat) : List FlightRow :=
  (db.flights ++ changes.newRecords.map (rowOfHashed now)).map
    (softDel now (changes.deletedRecords.map (·.hash)))

/-- The full effect of a successful full load on the flights table. -/
def fullLoadFlights (df : List PyRow) (now : Nat) : List FlightRow :=
  (hashedDf df).map (rowOfHashed now)

/- ===================== Concrete fixtures ===================== -/

/-- A one-field incoming record used by concrete witnesses. -/
def sampleRowA : PyRow := [("airline", PyVal.str "A")]

/-- A second one-field incoming record. -/
def sampleRowB : PyRow := [("airline", PyVal.str "B")]

/-- A small target store holding one active row with fingerprint "h2". -/
def sampleDb : PgState := ⟨[⟨"h2", true, 0, []⟩], []⟩

/-- A small changes dictionary: one new record, one deleted record. -/
def sampleChanges : ChangeSet := ⟨[⟨sampleRowA, "h1"⟩], [⟨[], "h2"⟩], [], 0⟩

/-- Stats matching `sampleChanges`. -/
def sampleStats : LoadStats := ⟨1, 0, 1, 0⟩

/-- A target store whose single active row already carries the fingerprint of
`sampleRowA`, so an incoming `[sampleRowA]` takes the incremental path. -/
def sampleActiveDb : PgState :=
  ⟨[⟨calculateRecordHash sampleRowA, true, 0, sampleRowA⟩], []⟩

/- ===================== Execution-step lemmas ===================== -/

set_option maxRecDepth 4000 in
example : md5Hex "abc" = "900150983cd24fb0d6963f7d28e17f72" := by decide

set_option maxRecDepth 4000 in
example : md5Hex "A|||||||" = "921afe39536dd27bf137d882180ed14b" := by decide

theorem execStmt_ok {failAt : Option Nat} {tag : StmtTag}
    {eff : PgState → PgState} {ps : List PyVal} {st st' : TxnState}
    (h : execStmt failAt tag eff ps st = .ok st') :
    st'.pending = eff st.pending ∧ st'.idx = st.idx + 1 ∧
    st'.trace = st.trace ++ [tag] ∧ st'.params = st.params ++ ps ∧
    failAt ≠ some st.idx := by
  unfold execStmt at h
  split at h
  · exact nomatch h
  · next hne => cases h; exact ⟨rfl, rfl, rfl, rfl, hne⟩

theorem execStmt_fail {failAt : Option Nat} {tag : StmtTag}
    {eff : PgState → PgState} {ps : List PyVal} {st st' : TxnState} {e : String}
    (h : execStmt failAt tag eff ps st = .fail st' e) :
    failAt = some st.idx ∧ st'.trace = st.trace ∧ st'.params = st.params := by
  unfold execStmt at h
  split at h
  · next heq => cases h; exact ⟨heq, rfl, rfl⟩
  · exact nomatch h

theorem execMeta_spec (failAt : Option Nat) (ev : LoadEvent) (ps : List PyVal)
    (st : TxnState) :
    (execMeta failAt ev ps st).pending.flights = st.pending.flights ∧
    (execMeta failAt ev ps st).idx = st.idx + 1 ∧
    (((execMeta failAt ev ps st).pending.metadata
        = st.pending.metadata ++ [ev] ∧
      (execMeta failAt ev ps st).trace = st.trace ++ [StmtTag.metaInsert] ∧
      (execMeta failAt ev ps st).params = st.params ++ ps)
     ∨ ((execMeta failAt ev ps st).pending.metadata = st.pending.metadata ∧
        (execMeta failAt ev ps st).trace = st.trace ∧
        (execMeta failAt ev ps st).params = st.params)) := by
  unfold execMeta
  split
  · exact ⟨rfl, rfl, Or.inr ⟨rfl, rfl, rfl⟩⟩
  · exact ⟨rfl, rfl, Or.inl ⟨rfl, rfl, rfl⟩⟩

theorem execMeta_of_ne (failAt : Option Nat) (ev : LoadEvent) (ps : List PyVal)
    (st : TxnState) (h : failAt ≠ some st.idx) :
    (execMeta failAt ev ps st).pending.metadata
      = st.pending.metadata ++ [ev] ∧
    (execMeta failAt ev ps st).trace = st.trace ++ [StmtTag.metaInsert] := by
  unfold execMeta
  rw [if_neg h]
  exact ⟨rfl, rfl⟩

theorem chunksBy_flatten {α : Type} (n : Nat) :
    ∀ (fuel : Nat) (l : List α), l.length ≤ fuel →
      (chunksBy n fuel l).flatten = l := by
  intro fuel
  induction fuel with
  | zero =>
    intro l hl
    have h0 : l = [] := List.eq_nil_of_length_eq_zero (Nat.le_zero.mp hl)
    subst h0
    simp [chunksBy]
  | succ fuel ih =>
    intro l hl
    cases l with
    | nil => simp [chunksBy]
    | cons x xs =>
      rw [chunksBy]
      rw [List.flatten_cons]
      rw [ih (((x :: xs).drop (n + 1)))
        (by simp only [List.length_drop, List.length_cons] at hl ⊢; omega)]
      exact List.take_append_drop _ _

theorem chunksOf_flatten {α : Type} (n : Nat) (l : List α) :
    (chunksOf n l).flatten = l :=
  chunksBy_flatten _ _ _ (Nat.le_refl _)

theorem safeValue_ne_nan (v : PyVal) : safeValue v ≠ .nan := by
  cases v <;> simp [safeValue]

theorem nan_not_mem_buildInsertValues (rows : List PyRow) :
    PyVal.nan ∉ buildInsertValues rows := by
  intro hmem
  simp only [buildInsertValues, List.mem_flatten, List.mem_map] at hmem
  obtain ⟨l, ⟨r, hr, hl⟩, hnan⟩ := hmem
  subst hl
  simp only [List.mem_map] at hnan
  obtain ⟨c, hc, h⟩ := hnan
  exact safeValue_ne_nan _ h

theorem execChunks_ok {failAt : Option Nat} {now : Nat} :
    ∀ {cs : List (List HashedRow)} {st st' : TxnState},
    execChunks failAt now st cs = .ok st' →
    st'.pending.flights
      = st.pending.flights ++ cs.flatten.map (rowOfHashed now) ∧
    st'.pending.metadata = st.pending.metadata ∧
    st'.idx = st.idx + cs.length ∧
    (∃ tr, st'.trace = st.trace ++ tr ∧ ∀ x ∈ tr, x = StmtTag.insertChunk) ∧
    (∃ qs, st'.params = st.params ++ qs ∧ PyVal.nan ∉ qs) ∧
    (∀ j, st.idx ≤ j → j < st.idx + cs.length → failAt ≠ some j) := by
  intro cs
  induction cs with
  | nil =>
    intro st st' h
    rw [execChunks] at h
    cases h
    exact ⟨by simp, rfl, by simp, ⟨[], by simp, by simp⟩,
      ⟨[], by simp, by simp⟩, fun j h1 h2 => by simp at h2; omega⟩
  | cons c cs ih =>
    intro st st' h
    rw [execChunks] at h
    cases h0 : execStmt failAt .insertChunk (insertEffect now c)
        (buildInsertValues (c.map (prepareNewRow now))) st with
    | fail s e => rw [h0] at h; exact nomatch h
    | ok st1 =>
      rw [h0] at h
      simp only [ExecR.chain] at h
      obtain ⟨hp, hi, htr, hpy, hfa⟩ := execStmt_ok h0
      obtain ⟨f1, m1, i1, ⟨tr1, htr1, halltr⟩, ⟨qs1, hqs1, hnin⟩, hfa1⟩ := ih h
      have hpf : st1.pending.flights
          = st.pending.flights ++ c.map (rowOfHashed now) := by
        rw [hp]; rfl
      have hpm : st1.pending.metadata = st.pending.metadata := by
        rw [hp]; rfl
      refine ⟨?_, ?_, ?_, ?_, ?_, ?_⟩
      · rw [f1, hpf, List.flatten_cons, List.map_append, List.append_assoc]
      · rw [m1, hpm]
      · rw [i1, hi, List.length_cons]; omega
      · refine ⟨StmtTag.insertChunk :: tr1, ?_, ?_⟩
        · rw [htr1, htr]; simp
        · intro x hx
          rcases List.mem_cons.mp hx with h | h
          · exact h
          · exact halltr x h
      · refine ⟨buildInsertValues (c.map (prepareNewRow now)) ++ qs1, ?_, ?_⟩
        · rw [hqs1, hpy, List.append_assoc]
        · intro hx
          rcases List.mem_append.mp hx with h | h
          · exact nan_not_mem_buildInsertValues _ h
          · exact hnin h
      · intro j h1 h2
        rcases Nat.eq_or_lt_of_le h1 with h | h
        · rw [← h]; exact hfa
        · exact hfa1 j (by omega) (by simp at h2 ⊢; omega)

theorem execChunks_fail {failAt : Option Nat} {now : Nat} :
    ∀ {cs : List (List HashedRow)} {st st' : TxnState} {e : String},
    execChunks failAt now st cs = .fail st' e →
    (∃ tr, st'.trace = st.trace ++ tr ∧ ∀ x ∈ tr, x = StmtTag.insertChunk) ∧
    (∃ qs, st'.params = st.params ++ qs ∧ PyVal.nan ∉ qs) := by
  intro cs
  induction cs with
  | nil => intro st st' e h; rw [execChunks] at h; exact nomatch h
  | cons c cs ih =>
    intro st st' e h
    rw [execChunks] at h
    cases h0 : execStmt failAt .insertChunk (insertEffect now c)
        (buildInsertValues (c.map (prepareNewRow now))) st with
    | fail s e' =>
      rw [h0] at h
      simp only [ExecR.chain] at h
      cases h
      obtain ⟨_, htr, hps⟩ := execStmt_fail h0
      exact ⟨⟨[], by simp [htr], by simp⟩, ⟨[], by simp [hps], by simp⟩⟩
    | ok st1 =>
      rw [h0] at h
      simp only [ExecR.chain] at h
      obtain ⟨hp, hi, htr, hpy, hfa⟩ := execStmt_ok h0
      obtain ⟨⟨tr1, htr1, halltr⟩, ⟨qs1, hqs1, hnin⟩⟩ := ih h
      refine ⟨⟨StmtTag.insertChunk :: tr1, ?_, ?_⟩,
        ⟨buildInsertValues (c.map (prepareNewRow now)) ++ qs1, ?_, ?_⟩⟩
      · rw [htr1, htr]; simp
      · intro x hx
        rcases List.mem_cons.mp hx with h | h
        · exact h
        · exact halltr x h
      · rw [hqs1, hpy, List.append_assoc]
      · intro hx
        rcases List.mem_append.mp hx with h | h
        · exact nan_not_mem_buildInsertValues _ h
        · exact hnin h

theorem map_softDel_nil (now : Nat) (l : List FlightRow) :
    l.map (softDel now ([] : List String)) = l := by
  induction l with
  | nil => rfl
  | cons r l ih => simp [softDel, ih]

theorem nan_not_mem_metaParams (stats : LoadStats) (lt : String) (pct : Rat)
    (t : Nat) : PyVal.nan ∉ metaParams stats lt pct t := by
  simp [metaParams]

/-- Common final stage of both apply operations: the metadata INSERT in its
own try/except followed by COMMIT, wrapped in commit-or-rollback.  The
conclusions are phrased relative to the state `st3` reached after the apply
phase. -/
theorem metaCommit_spec (db : PgState) (fa : Option Nat) (ev : LoadEvent)
    (ps : List PyVal) (st3 : TxnState)
    (hnps : PyVal.nan ∉ ps) (hnst : PyVal.nan ∉ st3.params) :
    PyVal.nan ∉ (finishOutcome db
      (execStmt fa .commitTxn id [] (execMeta fa ev ps st3))).params ∧
    (((finishOutcome db
        (execStmt fa .commitTxn id [] (execMeta fa ev ps st3))).err
          = Option.none ∧
      (finishOutcome db
        (execStmt fa .commitTxn id [] (execMeta fa ev ps st3))).db.flights
          = st3.pending.flights ∧
      ((finishOutcome db
          (execStmt fa .commitTxn id [] (execMeta fa ev ps st3))).db.metadata
            = st3.pending.metadata ++ [ev]
        ∨ (finishOutcome db
          (execStmt fa .commitTxn id [] (execMeta fa ev ps st3))).db.metadata
            = st3.pending.metadata) ∧
      (∃ u, (finishOutcome db
          (execStmt fa .commitTxn id [] (execMeta fa ev ps st3))).trace
            = u ++ [StmtTag.commitTxn] ∧
        (StmtTag.commitTxn ∉ st3.trace → StmtTag.commitTxn ∉ u)) ∧
      fa ≠ some (st3.idx + 1) ∧
      (fa ≠ some st3.idx →
        (finishOutcome db
          (execStmt fa .commitTxn id [] (execMeta fa ev ps st3))).db.metadata
            = st3.pending.metadata ++ [ev] ∧
        ∃ u, (finishOutcome db
          (execStmt fa .commitTxn id [] (execMeta fa ev ps st3))).trace
            = u ++ [StmtTag.metaInsert, StmtTag.commitTxn]))
     ∨ (∃ e, (finishOutcome db
        (execStmt fa .commitTxn id [] (execMeta fa ev ps st3))).err = some e ∧
       (finishOutcome db
        (execStmt fa .commitTxn id [] (execMeta fa ev ps st3))).db = db)) := by
  obtain ⟨hmf, hmi, hmOr⟩ := execMeta_spec fa ev ps st3
  have hnmeta : PyVal.nan ∉ (execMeta fa ev ps st3).params := by
    rcases hmOr with ⟨_, _, hp⟩ | ⟨_, _, hp⟩ <;> rw [hp]
    · intro hx
      rcases List.mem_append.mp hx with h | h
      · exact hnst h
      · exact hnps h
    · exact hnst
  cases h3 : execStmt fa .commitTxn id [] (execMeta fa ev ps st3) with
  | fail s e =>
    simp only [finishOutcome]
    obtain ⟨hfa, htr, hps⟩ := execStmt_fail h3
    exact ⟨by rw [hps]; exact hnmeta, Or.inr ⟨e, by trivial, by trivial⟩⟩
  | ok st5 =>
    simp only [finishOutcome]
    obtain ⟨hp5, hi5, htr5, hps5, hfa5⟩ := execStmt_ok h3
    have hp5' : st5.pending = (execMeta fa ev ps st3).pending := hp5
    refine ⟨?_, Or.inl ⟨by trivial, ?_, ?_, ?_, ?_, ?_⟩⟩
    · rw [hps5]
      intro hx
      rcases List.mem_append.mp hx with h | h
      · exact hnmeta h
      · simp at h
    · rw [hp5', hmf]
    · rcases hmOr with ⟨hm, _, _⟩ | ⟨hm, _, _⟩
      · exact Or.inl (by rw [hp5', hm])
      · exact Or.inr (by rw [hp5', hm])
    · refine ⟨(execMeta fa ev ps st3).trace, htr5, ?_⟩
      intro hno hmem
      rcases hmOr with ⟨_, hm, _⟩ | ⟨_, hm, _⟩
      · rw [hm] at hmem
        rcases List.mem_append.mp hmem with h | h
        · exact hno h
        · simp at h
      · rw [hm] at hmem; exact hno hmem
    · intro hcon
      exact hfa5 (by rw [← hmi] at hcon; exact hcon)
    · intro hne
      obtain ⟨hm, htr⟩ := execMeta_of_ne fa ev ps st3 hne
      refine ⟨by rw [hp5', hm], st3.trace, ?_⟩
      rw [htr5, htr, List.append_assoc]
      rfl

/-- Full characterization of `apply_incremental_load` under fault injection:
the INSERT parameters never contain NaN, and the run either commits exactly
once at the very end with the complete effect applied (no fault hit any
apply-phase statement nor the COMMIT), or rolls back leaving the committed
store untouched and re-raises the error. -/
theorem applyIncrementalLoad_spec (db : PgState) (ch : ChangeSet) (lt : String)
    (stats : LoadStats) (now t : Nat) (fa : Option Nat) :
    PyVal.nan ∉ (applyIncrementalLoad db ch lt stats now t fa).params ∧
    (((applyIncrementalLoad db ch lt stats now t fa).err = Option.none ∧
      (applyIncrementalLoad db ch lt stats now t fa).db.flights
        = appliedIncrementalFlights db ch now ∧
      ((applyIncrementalLoad db ch lt stats now t fa).db.metadata
          = db.metadata ++ [incrementalEvent stats lt ch.changePercentage t]
        ∨ (applyIncrementalLoad db ch lt stats now t fa).db.metadata
          = db.metadata) ∧
      (∃ u, (applyIncrementalLoad db ch lt stats now t fa).trace
          = u ++ [StmtTag.commitTxn] ∧ StmtTag.commitTxn ∉ u) ∧
      (∀ j, j < stmtCountInc ch → fa ≠ some j) ∧
      fa ≠ some (stmtCountInc ch + 1) ∧
      (fa ≠ some (stmtCountInc ch) →
        (applyIncrementalLoad db ch lt stats now t fa).db.metadata
          = db.metadata ++ [incrementalEvent stats lt ch.changePercentage t] ∧
        ∃ u, (applyIncrementalLoad db ch lt stats now t fa).trace
          = u ++ [StmtTag.metaInsert, StmtTag.commitTxn]))
     ∨ (∃ e, (applyIncrementalLoad db ch lt stats now t fa).err = some e ∧
        (applyIncrementalLoad db ch lt stats now t fa).db = db)) := by
  unfold applyIncrementalLoad
  cases h0 : execStmt fa .beginTxn id [] ⟨db, 0, [], []⟩ with
  | fail s e =>
    simp only [ExecR.chain, finishOutcome]
    obtain ⟨hfa0, htr0, hps0⟩ := execStmt_fail h0
    exact ⟨by rw [hps0]; simp, Or.inr ⟨e, by trivial, by trivial⟩⟩
  | ok st1 =>
    simp only [ExecR.chain]
    obtain ⟨hp1, hi1, htr1, hps1, hfa1⟩ := execStmt_ok h0
    have hp1' : st1.pending = db := by rw [hp1]; rfl
    have hi1' : st1.idx = 1 := by rw [hi1]
    have htr1' : st1.trace = [StmtTag.beginTxn] := by rw [htr1]; rfl
    have hps1' : st1.params = [] := by rw [hps1]; rfl
    have hfa1' : fa ≠ some 0 := hfa1
    cases h1 : execChunks fa now st1 (chunksOf 500 ch.newRecords) with
    | fail s e =>
      simp only [ExecR.chain, finishOutcome]
      obtain ⟨⟨tr2, htr2, _⟩, ⟨qs2, hqs2, hnin2⟩⟩ := execChunks_fail h1
      refine ⟨?_, Or.inr ⟨e, by trivial, by trivial⟩⟩
      rw [hqs2, hps1']
      simpa using hnin2
    | ok st2 =>
      simp only [ExecR.chain]
      obtain ⟨hf2, hm2, hi2, ⟨tr2, htr2, hall2⟩, ⟨qs2, hqs2, hnin2⟩, hfa2⟩ :=
        execChunks_ok h1
      have hf2' : st2.pending.flights
          = db.flights ++ ch.newRecords.map (rowOfHashed now) := by
        rw [hf2, hp1', chunksOf_flatten]
      have hm2' : st2.pending.metadata = db.metadata := by rw [hm2, hp1']
      have hi2' : st2.idx = 1 + (chunksOf 500 ch.newRecords).length := by
        rw [hi2, hi1']
      have hps2' : st2.params = qs2 := by rw [hqs2, hps1']; rfl
      have htr2' : st2.trace = StmtTag.beginTxn :: tr2 := by
        rw [htr2, htr1']; rfl
      have hcomm2 : StmtTag.commitTxn ∉ st2.trace := by
        rw [htr2']
        intro hx
        rcases List.mem_cons.mp hx with h | h
        · exact nomatch h
        · exact nomatch (hall2 _ h)
      by_cases hdel : ch.deletedRecords.isEmpty
      · rw [if_pos hdel]
        simp only [ExecR.chain]
        have hdnil : ch.deletedRecords = [] := List.isEmpty_iff.mp hdel
        have hcnt : stmtCountInc ch
            = 1 + (chunksOf 500 ch.newRecords).length := by
          simp [stmtCountInc, hdel]
        obtain ⟨hN, hSF⟩ := metaCommit_spec db fa
          (incrementalEvent stats lt ch.changePercentage t)
          (metaParams stats lt ch.changePercentage t) st2
          (nan_not_mem_metaParams stats lt ch.changePercentage t)
          (by rw [hps2']; exact hnin2)
        refine ⟨hN, ?_⟩
        rcases hSF with ⟨he, hfl, hmd, ⟨u, hu, hcu⟩, hfc, hex⟩ | hF
        · left
          refine ⟨he, ?_, ?_, ⟨u, hu, hcu hcomm2⟩, ?_, ?_, ?_⟩
          · rw [hfl, hf2']
            simp only [appliedIncrementalFlights, hdnil, List.map_nil,
              map_softDel_nil]
          · rcases hmd with h | h
            · exact Or.inl (by rw [h, hm2'])
            · exact Or.inr (by rw [h, hm2'])
          · intro j hj
            rw [hcnt] at hj
            rcases Nat.lt_or_ge j 1 with h1 | h1
            · have hj0 : j = 0 := by omega
              rw [hj0]; exact hfa1'
            · exact hfa2 j (by rw [hi1']; omega) (by rw [hi1']; omega)
          · rw [hcnt, ← hi2']; exact hfc
          · intro hne
            have hne' : fa ≠ some st2.idx := by
              rw [hi2', ← hcnt]; exact hne
            obtain ⟨hm, hu2⟩ := hex hne'
            exact ⟨by rw [hm, hm2'], hu2⟩
        · exact Or.inr hF
      · rw [if_neg hdel]
        cases h2 : execStmt fa .softDelete
            (softDeleteEffect now (ch.deletedRecords.map (·.hash)))
            (PyVal.int now ::
              (ch.deletedRecords.map (·.hash)).map PyVal.str) st2 with
        | fail s e =>
          simp only [ExecR.chain, finishOutcome]
          obtain ⟨_, htr, hps⟩ := execStmt_fail h2
          refine ⟨?_, Or.inr ⟨e, by trivial, by trivial⟩⟩
          rw [hps, hps2']
          exact hnin2
        | ok st3 =>
          simp only [ExecR.chain]
          obtain ⟨hp3, hi3, htr3, hps3, hfa3⟩ := execStmt_ok h2
          have hcnt : stmtCountInc ch
              = 1 + (chunksOf 500 ch.newRecords).length + 1 := by
            simp [stmtCountInc, hdel]
          have hf3 : st3.pending.flights = appliedIncrementalFlights db ch now := by
            rw [hp3]
            show List.map (softDel now (ch.deletedRecords.map (·.hash)))
                st2.pending.flights = appliedIncrementalFlights db ch now
            rw [hf2']
            rfl
          have hm3 : st3.pending.metadata = db.metadata := by
            rw [hp3]
            show st2.pending.metadata = db.metadata
            exact hm2'
          have hi3' : st3.idx
              = 1 + (chunksOf 500 ch.newRecords).length + 1 := by
            rw [hi3, hi2']
          have hnin3 : PyVal.nan ∉ st3.params := by
            rw [hps3, hps2']
            intro hx
            rcases List.mem_append.mp hx with h | h
            · exact hnin2 h
            · rcases List.mem_cons.mp h with h' | h'
              · exact nomatch h'
              · obtain ⟨s, _, h''⟩ := List.mem_map.mp h'
                exact nomatch h''
          have hcomm3 : StmtTag.commitTxn ∉ st3.trace := by
            rw [htr3]
            intro hx
            rcases List.mem_append.mp hx with h | h
            · exact hcomm2 h
            · rcases List.mem_cons.mp h with h' | h'
              · exact nomatch h'
              · exact nomatch (List.not_mem_nil _ h')
          obtain ⟨hN, hSF⟩ := metaCommit_spec db fa
            (incrementalEvent stats lt ch.changePercentage t)
            (metaParams stats lt ch.changePercentage t) st3
            (nan_not_mem_metaParams stats lt ch.changePercentage t) hnin3
          refine ⟨hN, ?_⟩
          rcases hSF with ⟨he, hfl, hmd, ⟨u, hu, hcu⟩, hfc, hex⟩ | hF
          · left
            refine ⟨he, by rw [hfl, hf3], ?_, ⟨u, hu, hcu hcomm3⟩, ?_, ?_, ?_⟩
            · rcases hmd with h | h
              · exact Or.inl (by rw [h, hm3])
              · exact Or.inr (by rw [h, hm3])
            · intro j hj
              rw [hcnt] at hj
              rcases Nat.lt_or_ge j 1 with h1 | h1
              · have hj0 : j = 0 := by omega
                rw [hj0]; exact hfa1'
              · rcases Nat.lt_or_ge j
                  (1 + (chunksOf 500 ch.newRecords).length) with h2' | h2'
                · exact hfa2 j (by rw [hi1']; omega) (by rw [hi1']; omega)
                · have hje : j = 1 + (chunksOf 500 ch.newRecords).length := by
                    omega
                  rw [hje, ← hi2']
                  exact hfa3
            · rw [hcnt, ← hi3']; exact hfc
            · intro hne
              have hne' : fa ≠ some st3.idx := by
                rw [hi3', ← hcnt]; exact hne
              obtain ⟨hm, hu2⟩ := hex hne'
              exact ⟨by rw [hm, hm3], hu2⟩
          · exact Or.inr hF

/-- Full characterization of `apply_full_load` under fault injection,
mirroring `applyIncrementalLoad_spec`. -/
theorem applyFullLoad_spec (db : PgState) (df : List PyRow) (now t : Nat)
    (fa : Option Nat) :
    PyVal.nan ∉ (applyFullLoad db df now t fa).params ∧
    (((applyFullLoad db df now t fa).err = Option.none ∧
      (applyFullLoad db df now t fa).db.flights = fullLoadFlights df now ∧
      ((applyFullLoad db df now t fa).db.metadata
          = db.metadata ++ [fullEvent df.length t]
        ∨ (applyFullLoad db df now t fa).db.metadata = db.metadata) ∧
      (∃ u, (applyFullLoad db df now t fa).trace
          = u ++ [StmtTag.commitTxn] ∧ StmtTag.commitTxn ∉ u) ∧
      (∀ j, j < stmtCountFull df → fa ≠ some j) ∧
      fa ≠ some (stmtCountFull df + 1) ∧
      (fa ≠ some (stmtCountFull df) →
        (applyFullLoad db df now t fa).db.metadata
          = db.metadata ++ [fullEvent df.length t] ∧
        ∃ u, (applyFullLoad db df now t fa).trace
          = u ++ [StmtTag.metaInsert, StmtTag.commitTxn]))
     ∨ (∃ e, (applyFullLoad db df now t fa).err = some e ∧
        (applyFullLoad db df now t fa).db = db)) := by
  unfold applyFullLoad
  cases h0 : execStmt fa .beginTxn id [] ⟨db, 0, [], []⟩ with
  | fail s e =>
    simp only [ExecR.chain, finishOutcome]
    obtain ⟨hfa0, htr0, hps0⟩ := execStmt_fail h0
    exact ⟨by rw [hps0]; simp, Or.inr ⟨e, by trivial, by trivial⟩⟩
  | ok st1 =>
    simp only [ExecR.chain]
    obtain ⟨hp1, hi1, htr1, hps1, hfa1⟩ := execStmt_ok h0
    have hp1' : st1.pending = db := by rw [hp1]; rfl
    have hi1' : st1.idx = 1 := by rw [hi1]
    have htr1' : st1.trace = [StmtTag.beginTxn] := by rw [htr1]; rfl
    have hps1' : st1.params = [] := by rw [hps1]; rfl
    have hfa1' : fa ≠ some 0 := hfa1
    cases h1 : execStmt fa .truncateTbl (fun s => { s with flights := [] }) []
        st1 with
    | fail s e =>
      simp only [ExecR.chain, finishOutcome]
      obtain ⟨_, htr, hps⟩ := execStmt_fail h1
      exact ⟨by rw [hps, hps1']; simp, Or.inr ⟨e, by trivial, by trivial⟩⟩
    | ok st2 =>
      simp only [ExecR.chain]
      obtain ⟨hp2, hi2, htr2, hps2, hfa2⟩ := execStmt_ok h1
      have hf2' : st2.pending.flights = [] := by rw [hp2]
      have hm2' : st2.pending.metadata = db.metadata := by
        rw [hp2]
        show st1.pending.metadata = db.metadata
        rw [hp1']
      have hi2' : st2.idx = 2 := by rw [hi2, hi1']
      have hps2' : st2.params = [] := by rw [hps2, hps1']; rfl
      have hfa2' : fa ≠ some 1 := by rw [hi1'] at hfa2; exact hfa2
      have htr2' : st2.trace = [StmtTag.beginTxn, StmtTag.truncateTbl] := by
        rw [htr2, htr1']; rfl
      cases h2 : execChunks fa now st2 (chunksOf 500 (hashedDf df)) with
      | fail s e =>
        simp only [ExecR.chain, finishOutcome]
        obtain ⟨⟨tr3, htr3, _⟩, ⟨qs3, hqs3, hnin3⟩⟩ := execChunks_fail h2
        refine ⟨?_, Or.inr ⟨e, by trivial, by trivial⟩⟩
        rw [hqs3, hps2']
        simpa using hnin3
      | ok st3 =>
        simp only [ExecR.chain]
        obtain ⟨hf3, hm3, hi3, ⟨tr3, htr3, hall3⟩, ⟨qs3, hqs3, hnin3⟩, hfa3⟩ :=
          execChunks_ok h2
        have hf3' : st3.pending.flights = fullLoadFlights df now := by
          rw [hf3, hf2', chunksOf_flatten]
          rfl
        have hm3' : st3.pending.metadata = db.metadata := by rw [hm3, hm2']
        have hi3' : st3.idx = 2 + (chunksOf 500 (hashedDf df)).length := by
          rw [hi3, hi2']
        have hnin3' : PyVal.nan ∉ st3.params := by
          rw [hqs3, hps2']
          simpa using hnin3
        have hcomm3 : StmtTag.commitTxn ∉ st3.trace := by
          rw [htr3, htr2']
          intro hx
          rcases List.mem_append.mp hx with h | h
          · rcases List.mem_cons.mp h with h' | h'
            · exact nomatch h'
            · rcases List.mem_cons.mp h' with h'' | h''
              · exact nomatch h''
              · exact nomatch (List.not_mem_nil _ h'')
          · exact nomatch (hall3 _ h)
        have hcnt : stmtCountFull df = 2 + (chunksOf 500 (hashedDf df)).length :=
          rfl
        obtain ⟨hN, hSF⟩ := metaCommit_spec db fa (fullEvent df.length t)
          [.int df.length, .str "FULL", .float 100, .int t] st3
          (by simp) hnin3'
        refine ⟨hN, ?_⟩
        rcases hSF with ⟨he, hfl, hmd, ⟨u, hu, hcu⟩, hfc, hex⟩ | hF
        · left
          refine ⟨he, by rw [hfl, hf3'], ?_, ⟨u, hu, hcu hcomm3⟩, ?_, ?_, ?_⟩
          · rcases hmd with h | h
            · exact Or.inl (by rw [h, hm3'])
            · exact Or.inr (by rw [h, hm3'])
          · intro j hj
            rw [hcnt] at hj
            rcases Nat.lt_or_ge j 1 with h1 | h1
            · have hj0 : j = 0 := by omega
              rw [hj0]; exact hfa1'
            · rcases Nat.lt_or_ge j 2 with h2' | h2'
              · have hj1 : j = 1 := by omega
                rw [hj1]; exact hfa2'
              · exact hfa3 j (by rw [hi2']; omega) (by rw [hi2']; omega)
          · rw [hcnt, ← hi3']; exact hfc
          · intro hne
            have hne' : fa ≠ some st3.idx := by
              rw [hi3', ← hcnt]; exact hne
            obtain ⟨hm, hu2⟩ := hex hne'
            exact ⟨by rw [hm, hm3'], hu2⟩
        · exact Or.inr hF

theorem execMeta_of_eq (failAt : Option Nat) (ev : LoadEvent) (ps : List PyVal)
    (st : TxnState) (h : failAt = some st.idx) :
    (execMeta failAt ev ps st).pending = st.pending ∧
    (execMeta failAt ev ps st).idx = st.idx + 1 := by
  unfold execMeta
  rw [if_pos h]
  exact ⟨rfl, rfl⟩

theorem execChunks_fail_range {failAt : Option Nat} {now : Nat} :
    ∀ {cs : List (List HashedRow)} {st st' : TxnState} {e : String},
    execChunks failAt now st cs = .fail st' e →
    ∃ j, failAt = some j ∧ st.idx ≤ j ∧ j < st.idx + cs.length := by
  intro cs
  induction cs with
  | nil => intro st st' e h; rw [execChunks] at h; exact nomatch h
  | cons c cs ih =>
    intro st st' e h
    rw [execChunks] at h
    cases h0 : execStmt failAt .insertChunk (insertEffect now c)
        (buildInsertValues (c.map (prepareNewRow now))) st with
    | fail s e' =>
      rw [h0] at h
      simp only [ExecR.chain] at h
      obtain ⟨hfa, _, _⟩ := execStmt_fail h0
      exact ⟨st.idx, hfa, Nat.le_refl _,
        by simp only [List.length_cons]; omega⟩
    | ok st1 =>
      rw [h0] at h
      simp only [ExecR.chain] at h
      obtain ⟨_, hi, _, _, _⟩ := execStmt_ok h0
      obtain ⟨j, hj, hj1, hj2⟩ := ih h
      rw [hi] at hj1 hj2
      exact ⟨j, hj, by omega, by simp only [List.length_cons]; omega⟩

/-- Fault injected exactly at the metadata INSERT of an incremental load: the
statement's own try/except catches it, so the run still commits, with the
complete flights effect applied but no LoadEvent appended. -/
theorem applyIncrementalLoad_metaFault (db : PgState) (ch : ChangeSet)
    (lt : String) (stats : LoadStats) (now t : Nat) :
    (applyIncrementalLoad db ch lt stats now t
        (some (stmtCountInc ch))).err = Option.none ∧
    (applyIncrementalLoad db ch lt stats now t
        (some (stmtCountInc ch))).db.metadata = db.metadata ∧
    (applyIncrementalLoad db ch lt stats now t
        (some (stmtCountInc ch))).db.flights
      = appliedIncrementalFlights db ch now := by
  have hcnt1 : 1 + (chunksOf 500 ch.newRecords).length ≤ stmtCountInc ch := by
    unfold stmtCountInc; split <;> omega
  unfold applyIncrementalLoad
  cases h0 : execStmt (some (stmtCountInc ch)) .beginTxn id []
      ⟨db, 0, [], []⟩ with
  | fail s e =>
    exfalso
    obtain ⟨hfa, _, _⟩ := execStmt_fail h0
    have hfa' : some (stmtCountInc ch) = some (0 : Nat) := hfa
    injection hfa' with hfa'
    omega
  | ok st1 =>
    simp only [ExecR.chain]
    obtain ⟨hp1, hi1, _, _, _⟩ := execStmt_ok h0
    have hp1' : st1.pending = db := by rw [hp1]; rfl
    have hi1' : st1.idx = 1 := by rw [hi1]
    cases h1 : execChunks (some (stmtCountInc ch)) now st1
        (chunksOf 500 ch.newRecords) with
    | fail s e =>
      exfalso
      obtain ⟨j, hj, hj1, hj2⟩ := execChunks_fail_range h1
      injection hj with hj
      rw [hi1'] at hj1 hj2
      omega
    | ok st2 =>
      simp only [ExecR.chain]
      obtain ⟨hf2, hm2, hi2, _, _, _⟩ := execChunks_ok h1
      have hf2' : st2.pending.flights
          = db.flights ++ ch.newRecords.map (rowOfHashed now) := by
        rw [hf2, hp1', chunksOf_flatten]
      have hm2' : st2.pending.metadata = db.metadata := by rw [hm2, hp1']
      have hi2' : st2.idx = 1 + (chunksOf 500 ch.newRecords).length := by
        rw [hi2, hi1']
      by_cases hdel : ch.deletedRecords.isEmpty
      · rw [if_pos hdel]
        simp only [ExecR.chain]
        have hdnil : ch.deletedRecords = [] := List.isEmpty_iff.mp hdel
        have hcnt : stmtCountInc ch
            = 1 + (chunksOf 500 ch.newRecords).length := by
          simp [stmtCountInc, hdel]
        have hmeta := execMeta_of_eq (some (stmtCountInc ch))
          (incrementalEvent stats lt ch.changePercentage t)
          (metaParams stats lt ch.changePercentage t) st2
          (by rw [hi2', ← hcnt])
        cases h3 : execStmt (some (stmtCountInc ch)) .commitTxn id []
            (execMeta (some (stmtCountInc ch))
              (incrementalEvent stats lt ch.changePercentage t)
              (metaParams stats lt ch.changePercentage t) st2) with
        | fail s e =>
          exfalso
          obtain ⟨hfa, _, _⟩ := execStmt_fail h3
          injection hfa with hfa
          rw [hmeta.2, hi2', ← hcnt] at hfa
          omega
        | ok st5 =>
          simp only [finishOutcome]
          obtain ⟨hp5, _, _, _, _⟩ := execStmt_ok h3
          refine ⟨by trivial, ?_, ?_⟩
          · rw [hp5, hmeta.1]
            show st2.pending.metadata = db.metadata
            exact hm2'
          · rw [hp5, hmeta.1]
            show st2.pending.flights = appliedIncrementalFlights db ch now
            rw [hf2']
            simp only [appliedIncrementalFlights, hdnil, List.map_nil,
              map_softDel_nil]
      · rw [if_neg hdel]
        have hcnt : stmtCountInc ch
            = 1 + (chunksOf 500 ch.newRecords).length + 1 := by
          simp [stmtCountInc, hdel]
        cases h2 : execStmt (some (stmtCountInc ch)) .softDelete
            (softDeleteEffect now (ch.deletedRecords.map (·.hash)))
            (PyVal.int now ::
              (ch.deletedRecords.map (·.hash)).map PyVal.str) st2 with
        | fail s e =>
          exfalso
          obtain ⟨hfa, _, _⟩ := execStmt_fail h2
          injection hfa with hfa
          rw [hi2', hcnt] at hfa
          omega
        | ok st3 =>
          simp only [ExecR.chain]
          obtain ⟨hp3, hi3, _, _, _⟩ := execStmt_ok h2
          have hmeta := execMeta_of_eq (some (stmtCountInc ch))
            (incrementalEvent stats lt ch.changePercentage t)
            (metaParams stats lt ch.changePercentage t) st3
            (by rw [hi3, hi2', ← hcnt])
          cases h3 : execStmt (some (stmtCountInc ch)) .commitTxn id []
              (execMeta (some (stmtCountInc ch))
                (incrementalEvent stats lt ch.changePercentage t)
                (metaParams stats lt ch.changePercentage t) st3) with
          | fail s e =>
            exfalso
            obtain ⟨hfa, _, _⟩ := execStmt_fail h3
            injection hfa with hfa
            rw [hmeta.2, hi3, hi2', hcnt] at hfa
            omega
          | ok st5 =>
            simp only [finishOutcome]
            obtain ⟨hp5, _, _, _, _⟩ := execStmt_ok h3
            refine ⟨by trivial, ?_, ?_⟩
            · rw [hp5, hmeta.1, hp3]
              show st2.pending.metadata = db.metadata
              exact hm2'
            · rw [hp5, hmeta.1, hp3]
              show List.map (softDel now (ch.deletedRecords.map (·.hash)))
                st2.pending.flights = appliedIncrementalFlights db ch now
              rw [hf2']
              rfl

/-- Fault injected exactly at the metadata INSERT of a full load: caught by
its try/except, so the run still commits with the full reload applied and no
LoadEvent appended. -/
theorem applyFullLoad_metaFault (db : PgState) (df : List PyRow) (now t : Nat) :
    (applyFullLoad db df now t (some (stmtCountFull df))).err = Option.none ∧
    (applyFullLoad db df now t
        (some (stmtCountFull df))).db.metadata = db.metadata ∧
    (applyFullLoad db df now t (some (stmtCountFull df))).db.flights
      = fullLoadFlights df now := by
  have hcnt : stmtCountFull df = 2 + (chunksOf 500 (hashedDf df)).length := rfl
  unfold applyFullLoad
  cases h0 : execStmt (some (stmtCountFull df)) .beginTxn id []
      ⟨db, 0, [], []⟩ with
  | fail s e =>
    exfalso
    obtain ⟨hfa, _, _⟩ := execStmt_fail h0
    have hfa' : some (stmtCountFull df) = some (0 : Nat) := hfa
    injection hfa' with hfa'
    rw [hcnt] at hfa'
    omega
  | ok st1 =>
    simp only [ExecR.chain]
    obtain ⟨hp1, hi1, _, _, _⟩ := execStmt_ok h0
    have hp1' : st1.pending = db := by rw [hp1]; rfl
    have hi1' : st1.idx = 1 := by rw [hi1]
    cases h1 : execStmt (some (stmtCountFull df)) .truncateTbl
        (fun s => { s with flights := [] }) [] st1 with
    | fail s e =>
      exfalso
      obtain ⟨hfa, _, _⟩ := execStmt_fail h1
      injection hfa with hfa
      rw [hi1', hcnt] at hfa
      omega
    | ok st2 =>
      simp only [ExecR.chain]
      obtain ⟨hp2, hi2, _, _, _⟩ := execStmt_ok h1
      have hf2' : st2.pending.flights = [] := by rw [hp2]
      have hm2' : st2.pending.metadata = db.metadata := by
        rw [hp2]
        show st1.pending.metadata = db.metadata
        rw [hp1']
      have hi2' : st2.idx = 2 := by rw [hi2, hi1']
      cases h2 : execChunks (some (stmtCountFull df)) now st2
          (chunksOf 500 (hashedDf df)) with
      | fail s e =>
        exfalso
        obtain ⟨j, hj, hj1, hj2⟩ := execChunks_fail_range h2
        injection hj with hj
        rw [hi2'] at hj1 hj2
        rw [hcnt] at hj
        omega
      | ok st3 =>
        simp only [ExecR.chain]
        obtain ⟨hf3, hm3, hi3, _, _, _⟩ := execChunks_ok h2
        have hf3' : st3.pending.flights = fullLoadFlights df now := by
          rw [hf3, hf2', chunksOf_flatten]
          rfl
        have hm3' : st3.pending.metadata = db.metadata := by rw [hm3, hm2']
        have hi3' : st3.idx = 2 + (chunksOf 500 (hashedDf df)).length := by
          rw [hi3, hi2']
        have hmeta := execMeta_of_eq (some (stmtCountFull df))
          (fullEvent df.length t)
          [.int df.length, .str "FULL", .float 100, .int t] st3
          (by rw [hi3', ← hcnt])
        cases h3 : execStmt (some (stmtCountFull df)) .commitTxn id []
            (execMeta (some (stmtCountFull df)) (fullEvent df.length t)
              [.int df.length, .str "FULL", .float 100, .int t] st3) with
        | fail s e =>
          exfalso
          obtain ⟨hfa, _, _⟩ := execStmt_fail h3
          injection hfa with hfa
          rw [hmeta.2, hi3', ← hcnt] at hfa
          omega
        | ok st5 =>
          simp only [finishOutcome]
          obtain ⟨hp5, _, _, _, _⟩ := execStmt_ok h3
          refine ⟨by trivial, ?_, ?_⟩
          · rw [hp5, hmeta.1]
            show st3.pending.metadata = db.metadata
            exact hm3'
          · rw [hp5, hmeta.1]
            show st3.pending.flights = fullLoadFlights df now
            exact hf3'

/- ===================== Digest-length and detect lemmas ===================== -/

theorem hexOfBytes_length (bs : List Nat) :
    (hexOfBytes bs).length = 2 * bs.length := by
  induction bs with
  | nil => rfl
  | cons b bs ih => simp [hexOfBytes, ih]; omega

theorem md5Bytes_length (msg : List Nat) : (md5Bytes msg).length = 16 := by
  unfold md5Bytes
  simp [le4]

theorem md5Hex_length (s : String) : (md5Hex s).length = 32 := by
  unfold md5Hex
  rw [String.length_mk, hexOfBytes_length, md5Bytes_length]

theorem detectChanges_updated (stats : LoadStats) (incoming : List PyRow)
    (q : Except String (List HashedRow)) :
    (detectChanges stats incoming q).2.updated = stats.updated := by
  unfold detectChanges
  dsimp only
  split <;> rfl

theorem isEmpty_false_of_ne_nil {α : Type} {l : List α} (h : l ≠ []) :
    ¬ l.isEmpty = true := by
  simp only [List.isEmpty_iff]
  exact h

/- ===================== Claims ===================== -/

/-- C2: `detect_changes` returns a change ratio of
`(|New| + |Deleted|) / |incoming| * 100`; with an empty active set the whole
incoming set is New, Deleted is empty and the ratio is 100; with an empty
incoming set (and a non-empty active set) the ratio is 0, and the pipeline
task short-circuits on empty incoming with zero counts, ratio 0 and no
target-store mutation. -/
theorem detect_changes_ratio :
    (∀ (stats : LoadStats) (incoming : List PyRow),
      detectChanges stats incoming (Except.ok ([] : List HashedRow))
        = (⟨hashedDf incoming, [], [], 100⟩, stats)) ∧
    (∀ (stats : LoadStats) (incoming : List PyRow)
        (existing : List HashedRow), existing ≠ [] → incoming ≠ [] →
      (detectChanges stats incoming (Except.ok existing)).1.changePercentage
        = (((detectChanges stats incoming
              (Except.ok existing)).1.newRecords.length
            + (detectChanges stats incoming
              (Except.ok existing)).1.deletedRecords.length : Nat) : Rat)
          / ((incoming.length : Nat) : Rat) * 100) ∧
    (∀ (stats : LoadStats) (existing : List HashedRow), existing ≠ [] →
      (detectChanges stats [] (Except.ok existing)).1.changePercentage = 0) ∧
    (∀ (db : PgState) (now t : Nat) (fa : Option Nat),
      transferToPostgresIncremental db [] now t fa
        = ⟨db, "NONE", 0, 0, 0, [], Option.none⟩) := by
  refine ⟨fun stats incoming => rfl, ?_, ?_, fun db now t fa => rfl⟩
  · intro stats incoming existing hex hinc
    unfold detectChanges loadExistingDataFromPostgres
    dsimp only
    rw [if_neg (isEmpty_false_of_ne_nil hex)]
    dsimp only
    rw [if_pos (List.length_pos.mpr hinc)]
  · intro stats existing hex
    unfold detectChanges loadExistingDataFromPostgres
    dsimp only
    rw [if_neg (isEmpty_false_of_ne_nil hex)]
    rfl

/-- C2 witness: the theorem applied at concrete inputs. -/
theorem detect_changes_ratio_witness :
    (detectChanges initLoadStats [sampleRowA]
        (Except.ok [⟨[], "zz"⟩])).1.changePercentage
      = (((detectChanges initLoadStats [sampleRowA]
            (Except.ok [⟨[], "zz"⟩])).1.newRecords.length
          + (detectChanges initLoadStats [sampleRowA]
            (Except.ok [⟨[], "zz"⟩])).1.deletedRecords.length : Nat) : Rat)
        / (((1 : Nat) : Nat) : Rat) * 100 ∧
    (detectChanges initLoadStats [] (Except.ok [⟨[], "zz"⟩])).1.changePercentage
      = 0 :=
  ⟨detect_changes_ratio.2.1 initLoadStats [sampleRowA] [⟨[], "zz"⟩]
      (by decide) (by decide),
   detect_changes_ratio.2.2.1 initLoadStats [⟨[], "zz"⟩] (by decide)⟩

/-- C3: the load-strategy decision is a pure function of the change ratio and
the threshold: FULL iff the ratio strictly exceeds the threshold, INCREMENTAL
otherwise (a ratio exactly equal to the threshold selects INCREMENTAL), and
the pipeline task's chosen load type is exactly this function of the
detector's ratio and `FULL_LOAD_THRESHOLD`. -/
theorem load_strategy_selection :
    (∀ ratio threshold : Rat,
      (selectLoadStrategy ratio threshold = "FULL" ↔ ratio > threshold) ∧
      (selectLoadStrategy ratio threshold = "INCREMENTAL"
        ↔ ¬ ratio > threshold)) ∧
    selectLoadStrategy 50 50 = "INCREMENTAL" ∧
    (∀ (db : PgState) (incoming : List PyRow) (now t : Nat) (fa : Option Nat),
      incoming ≠ [] →
      (transferToPostgresIncremental db incoming now t fa).loadType
        = selectLoadStrategy
            (detectChanges initLoadStats incoming
              (Except.ok (activeRows db))).1.changePercentage
            FULL_LOAD_THRESHOLD) := by
  refine ⟨?_, by decide, ?_⟩
  · intro ratio threshold
    by_cases hgt : ratio > threshold
    · simp [selectLoadStrategy, hgt]
    · simp [selectLoadStrategy, hgt]
  · intro db incoming now t fa hinc
    unfold transferToPostgresIncremental
    rw [if_neg (isEmpty_false_of_ne_nil hinc)]
    dsimp only
    by_cases hgt : (detectChanges initLoadStats incoming
        (Except.ok (activeRows db))).1.changePercentage > FULL_LOAD_THRESHOLD
    · rw [if_pos hgt]
      unfold selectLoadStrategy
      rw [if_pos hgt]
    · rw [if_neg hgt]
      unfold selectLoadStrategy
      rw [if_neg hgt]

/-- C3 witness: the theorem applied at concrete inputs, including the exact
threshold boundary. -/
theorem load_strategy_selection_witness :
    (selectLoadStrategy 50 50 = "INCREMENTAL" ↔ ¬ (50 : Rat) > 50) ∧
    (transferToPostgresIncremental sampleDb [sampleRowA] 0 1
        Option.none).loadType
      = selectLoadStrategy
          (detectChanges initLoadStats [sampleRowA]
            (Except.ok (activeRows sampleDb))).1.changePercentage
          FULL_LOAD_THRESHOLD :=
  ⟨(load_strategy_selection.1 50 50).2,
   load_strategy_selection.2.2 sampleDb [sampleRowA] 0 1 Option.none
     (by decide)⟩

/-- C5 evaluation: `load_existing_data_from_postgres` catches every exception
and returns an empty DataFrame, so a failed read (unreachable target store) is
indistinguishable from a legitimate first run, and `detect_changes` then
treats the whole incoming set as New with a 100 percent change ratio. -/
theorem load_existing_swallows_target_errors :
    loadExistingDataFromPostgres (Except.error "connection refused")
      = ([] : List HashedRow) ∧
    loadExistingDataFromPostgres (Except.ok ([] : List HashedRow)) = [] ∧
    (detectChanges initLoadStats [sampleRowA]
        (Except.error "connection refused")).1.changePercentage = 100 :=
  ⟨rfl, rfl, rfl⟩

/-- C7: the fingerprint projects the eight identity fields in fixed order,
normalizes absent fields to the empty string, joins them with the `|`
delimiter and hashes to a fixed-length 32-hex-character (128-bit) digest;
the digest depends only on the eight covered lookups (hence is independent of
field order, of any non-covered field, and of repeated calls). -/
theorem record_fingerprint_spec :
    (∀ r : PyRow, (calculateRecordHash r).length = 32) ∧
    (∀ r1 r2 : PyRow,
      (∀ f ∈ keyFields, rowGetD r1 f (.str "") = rowGetD r2 f (.str "")) →
      calculateRecordHash r1 = calculateRecordHash r2) ∧
    (∀ r : PyRow,
      (∀ f ∈ keyFields, r.find? (fun p => p.1 == f) = Option.none) →
      calculateRecordHash r = md5Hex "|||||||") := by
  refine ⟨fun r => md5Hex_length _, ?_, ?_⟩
  · intro r1 r2 h
    unfold calculateRecordHash
    rw [List.map_congr_left (fun f hf => by rw [h f hf])]
  · intro r h
    unfold calculateRecordHash
    have hmap : keyFields.map (fun f => (rowGetD r f (.str "")).pyStr)
        = keyFields.map (fun _ => "") := by
      refine List.map_congr_left (fun f hf => ?_)
      unfold rowGetD
      rw [h f hf]
      rfl
    rw [hmap]
    have hkey : String.intercalate "|" (keyFields.map fun _ => "")
        = "|||||||" := by decide
    rw [hkey]

/-- C7 witness: two records with equal covered fields but different field
order and different non-covered fields share the fingerprint, of length 32;
a record with no covered fields hashes the all-empty key string. -/
theorem record_fingerprint_spec_witness :
    (calculateRecordHash sampleRowA).length = 32 ∧
    calculateRecordHash [("airline", PyVal.str "A"), ("extra", PyVal.int 5)]
      = calculateRecordHash [("junk", PyVal.nan), ("airline", PyVal.str "A")] ∧
    calculateRecordHash [("other", PyVal.str "x")] = md5Hex "|||||||" :=
  ⟨record_fingerprint_spec.1 sampleRowA,
   record_fingerprint_spec.2.1 _ _ (by decide),
   record_fingerprint_spec.2.2 [("other", PyVal.str "x")] (by decide)⟩

/-- C10: `_safe_value` is total, maps exactly None, float NaN and pandas NA
to None and everything else to itself, and consequently NaN never appears
among the SQL parameters either apply operation passes to the database. -/
theorem safe_value_spec :
    (∀ v : PyVal, safeValue v = PyVal.none
      ↔ (v = PyVal.none ∨ v = PyVal.nan ∨ v = PyVal.na)) ∧
    (∀ v : PyVal, v ≠ PyVal.none → v ≠ PyVal.nan → v ≠ PyVal.na →
      safeValue v = v) ∧
    (∀ rows : List PyRow, PyVal.nan ∉ buildInsertValues rows) ∧
    (∀ (db : PgState) (ch : ChangeSet) (lt : String) (stats : LoadStats)
        (now t : Nat) (fa : Option Nat),
      PyVal.nan ∉ (applyIncrementalLoad db ch lt stats now t fa).params) ∧
    (∀ (db : PgState) (df : List PyRow) (now t : Nat) (fa : Option Nat),
      PyVal.nan ∉ (applyFullLoad db df now t fa).params) := by
  refine ⟨?_, ?_, nan_not_mem_buildInsertValues, ?_, ?_⟩
  · intro v; cases v <;> simp [safeValue]
  · intro v h1 h2 h3; cases v <;> simp_all [safeValue]
  · intro db ch lt stats now t fa
    exact (applyIncrementalLoad_spec db ch lt stats now t fa).1
  · intro db df now t fa
    exact (applyFullLoad_spec db df now t fa).1

/-- C10 witness: the theorem applied at concrete values and a concrete run. -/
theorem safe_value_spec_witness :
    safeValue (PyVal.int 7) = PyVal.int 7 ∧
    PyVal.nan ∉ buildInsertValues [sampleRowA] ∧
    PyVal.nan ∉ (applyIncrementalLoad sampleDb sampleChanges "INCREMENTAL"
      sampleStats 5 1 Option.none).params :=
  ⟨safe_value_spec.2.1 (PyVal.int 7) (by decide) (by decide) (by decide),
   safe_value_spec.2.2.1 [sampleRowA],
   safe_value_spec.2.2.2.1 sampleDb sampleChanges "INCREMENTAL" sampleStats
     5 1 Option.none⟩

theorem toFinset_map_filter (l : List HashedRow) (s : Finset String) :
    ((l.filter (fun r => decide (r.hash ∈ s))).map (·.hash)).toFinset
      = (l.map (·.hash)).toFinset ∩ s := by
  ext a
  simp only [List.mem_toFinset, List.mem_map, List.mem_filter,
    decide_eq_true_eq, Finset.mem_inter]
  constructor
  · rintro ⟨r, ⟨hr, hs⟩, rfl⟩
    exact ⟨⟨r, hr, rfl⟩, hs⟩
  · rintro ⟨⟨r, hr, rfl⟩, hs⟩
    exact ⟨r, ⟨hr, hs⟩, rfl⟩

/-- C4: with a non-empty active set, `detect_changes` partitions by
fingerprint: New is incoming minus active, Deleted is active minus incoming,
Unchanged is the intersection; the three are pairwise disjoint, New and
Unchanged cover the incoming fingerprints, Deleted and Unchanged cover the
active fingerprints. -/
theorem change_set_partition (stats : LoadStats) (incoming : List PyRow)
    (existing : List HashedRow) (hne : existing ≠ []) :
    let res := (detectChanges stats incoming (Except.ok existing)).1
    let I : Finset String := ((hashedDf incoming).map (·.hash)).toFinset
    let A : Finset String := (existing.map (·.hash)).toFinset
    let N : Finset String := (res.newRecords.map (·.hash)).toFinset
    let D : Finset String := (res.deletedRecords.map (·.hash)).toFinset
    let U : Finset String := (res.unchangedRecords.map (·.hash)).toFinset
    N = I \ A ∧ D = A \ I ∧ U = A ∩ I ∧
    Disjoint N D ∧ Disjoint N U ∧ Disjoint D U ∧
    N ∪ U = I ∧ D ∪ U = A := by
  unfold detectChanges loadExistingDataFromPostgres
  dsimp only
  rw [if_neg (isEmpty_false_of_ne_nil hne)]
  dsimp only
  have hN := toFinset_map_filter (hashedDf incoming)
    (((hashedDf incoming).map (·.hash)).toFinset
      \ (existing.map (·.hash)).toFinset)
  have hD := toFinset_map_filter existing
    ((existing.map (·.hash)).toFinset
      \ ((hashedDf incoming).map (·.hash)).toFinset)
  have hU := toFinset_map_filter (hashedDf incoming)
    ((existing.map (·.hash)).toFinset
      ∩ ((hashedDf incoming).map (·.hash)).toFinset)
  rw [hN, hD, hU]
  rw [Finset.inter_eq_right.mpr Finset.sdiff_subset,
    Finset.inter_eq_right.mpr Finset.sdiff_subset,
    Finset.inter_eq_right.mpr Finset.inter_subset_right]
  refine ⟨rfl, rfl, rfl, disjoint_sdiff_sdiff, ?_, ?_, ?_, ?_⟩
  · exact disjoint_sdiff_self_left.mono_right Finset.inter_subset_left
  · exact disjoint_sdiff_self_left.mono_right Finset.inter_subset_right
  · ext a
    simp only [Finset.mem_union, Finset.mem_sdiff, Finset.mem_inter]
    tauto
  · ext a
    simp only [Finset.mem_union, Finset.mem_sdiff, Finset.mem_inter]
    tauto

/-- C4 witness: the partition equalities at a concrete run. -/
theorem change_set_partition_witness :
    ((detectChanges initLoadStats [sampleRowA]
        (Except.ok [⟨[], "zz"⟩])).1.newRecords.map (·.hash)).toFinset
      = ((hashedDf [sampleRowA]).map (·.hash)).toFinset
        \ (([⟨[], "zz"⟩] : List HashedRow).map (·.hash)).toFinset ∧
    ((detectChanges initLoadStats [sampleRowA]
        (Except.ok [⟨[], "zz"⟩])).1.deletedRecords.map (·.hash)).toFinset
      = (([⟨[], "zz"⟩] : List HashedRow).map (·.hash)).toFinset
        \ ((hashedDf [sampleRowA]).map (·.hash)).toFinset := by
  have h := change_set_partition initLoadStats [sampleRowA] [⟨[], "zz"⟩]
    (by decide)
  exact ⟨h.1, h.2.1⟩

/-- C1: both apply operations are one atomic unit of work: on success the
whole effect is applied and the transaction commits exactly once, as the very
last statement (so no commit point lies between chunks or before the
soft-delete); on any failure the committed store is unchanged and the error is
re-raised; a fault injected at any apply-phase statement or at the COMMIT is
always surfaced as an error (never swallowed). -/
theorem apply_load_atomicity (db : PgState) (ch : ChangeSet) (lt : String)
    (stats : LoadStats) (df : List PyRow) (now t : Nat) (fa : Option Nat) :
    ((applyIncrementalLoad db ch lt stats now t fa).err = Option.none →
      (applyIncrementalLoad db ch lt stats now t fa).db.flights
        = appliedIncrementalFlights db ch now ∧
      ∃ u, (applyIncrementalLoad db ch lt stats now t fa).trace
        = u ++ [StmtTag.commitTxn] ∧ StmtTag.commitTxn ∉ u) ∧
    (∀ e, (applyIncrementalLoad db ch lt stats now t fa).err = some e →
      (applyIncrementalLoad db ch lt stats now t fa).db = db) ∧
    (∀ k, fa = some k → (k < stmtCountInc ch ∨ k = stmtCountInc ch + 1) →
      ((applyIncrementalLoad db ch lt stats now t fa).err).isSome = true) ∧
    ((applyFullLoad db df now t fa).err = Option.none →
      (applyFullLoad db df now t fa).db.flights = fullLoadFlights df now ∧
      ∃ u, (applyFullLoad db df now t fa).trace = u ++ [StmtTag.commitTxn] ∧
        StmtTag.commitTxn ∉ u) ∧
    (∀ e, (applyFullLoad db df now t fa).err = some e →
      (applyFullLoad db df now t fa).db = db) ∧
    (∀ k, fa = some k → (k < stmtCountFull df ∨ k = stmtCountFull df + 1) →
      ((applyFullLoad db df now t fa).err).isSome = true) := by
  obtain ⟨hN, hSF⟩ := applyIncrementalLoad_spec db ch lt stats now t fa
  obtain ⟨hN', hSF'⟩ := applyFullLoad_spec db df now t fa
  refine ⟨?_, ?_, ?_, ?_, ?_, ?_⟩
  · intro he
    rcases hSF with ⟨_, hfl, _, htr, _⟩ | ⟨e, he', _⟩
    · exact ⟨hfl, htr⟩
    · rw [he'] at he; exact nomatch he
  · intro e he
    rcases hSF with ⟨he', _⟩ | ⟨e', he', hdb⟩
    · rw [he'] at he; exact nomatch he
    · exact hdb
  · intro k hk hbound
    rcases hSF with ⟨he', _, _, _, hflt, hcm, _⟩ | ⟨e', he', _⟩
    · exfalso
      rcases hbound with h | h
      · exact hflt k h hk
      · rw [h] at hk; exact hcm hk
    · rw [he']; rfl
  · intro he
    rcases hSF' with ⟨_, hfl, _, htr, _⟩ | ⟨e, he', _⟩
    · exact ⟨hfl, htr⟩
    · rw [he'] at he; exact nomatch he
  · intro e he
    rcases hSF' with ⟨he', _⟩ | ⟨e', he', hdb⟩
    · rw [he'] at he; exact nomatch he
    · exact hdb
  · intro k hk hbound
    rcases hSF' with ⟨he', _, _, _, hflt, hcm, _⟩ | ⟨e', he', _⟩
    · exfalso
      rcases hbound with h | h
      · exact hflt k h hk
      · rw [h] at hk; exact hcm hk
    · rw [he']; rfl

/-- C1 witness: at concrete inputs, a fault-free incremental run applies the
full effect; a fault at the insert chunk rolls back and surfaces the error; a
fault at BEGIN of a full load rolls back. -/
theorem apply_load_atomicity_witness :
    (applyIncrementalLoad sampleDb sampleChanges "INCREMENTAL" sampleStats 5 1
        Option.none).db.flights
      = appliedIncrementalFlights sampleDb sampleChanges 5 ∧
    (applyIncrementalLoad sampleDb sampleChanges "INCREMENTAL" sampleStats 5 1
        (some 1)).db = sampleDb ∧
    ((applyIncrementalLoad sampleDb sampleChanges "INCREMENTAL" sampleStats 5 1
        (some 1)).err).isSome = true ∧
    (applyFullLoad sampleDb [sampleRowB] 5 1 (some 0)).db = sampleDb := by
  refine ⟨((apply_load_atomicity sampleDb sampleChanges "INCREMENTAL"
      sampleStats [sampleRowB] 5 1 Option.none).1 (by decide)).1, ?_, ?_, ?_⟩
  · exact (apply_load_atomicity sampleDb sampleChanges "INCREMENTAL"
      sampleStats [sampleRowB] 5 1 (some 1)).2.1 "statement 1 raised"
      (by decide)
  · exact (apply_load_atomicity sampleDb sampleChanges "INCREMENTAL"
      sampleStats [sampleRowB] 5 1 (some 1)).2.2.1 1 rfl (by decide)
  · exact (apply_load_atomicity sampleDb sampleChanges "INCREMENTAL"
      sampleStats [sampleRowB] 5 1 (some 0)).2.2.2.2.1 "statement 0 raised"
      (by decide)

/-- C6 counterexample: a run that fails during the apply phase reaches a
terminal state with the triggering error re-raised, yet appends zero
LoadEvents (not exactly one); and on a successful run the metadata INSERT
executes strictly before the COMMIT, inside the same transaction (not after
the transaction has committed). -/
theorem load_event_claim_counterexample :
    ((applyIncrementalLoad sampleDb sampleChanges "INCREMENTAL" sampleStats 5 1
        (some 1)).err).isSome = true ∧
    (applyIncrementalLoad sampleDb sampleChanges "INCREMENTAL" sampleStats 5 1
        (some 1)).db.metadata = [] ∧
    (applyIncrementalLoad sampleDb sampleChanges "INCREMENTAL" sampleStats 5 1
        Option.none).trace
      = [StmtTag.beginTxn, StmtTag.insertChunk, StmtTag.softDelete,
         StmtTag.metaInsert, StmtTag.commitTxn] := by decide

/-- C6 amended: on a committed run whose audit write is not itself faulted,
exactly one LoadEvent is appended, and the audit INSERT executes inside the
transaction immediately before the single COMMIT (it becomes visible
atomically with the sync, not after it).  The incremental path's event
carries the strategy tag, all four counts from the run's stats, the
detector's change ratio and the duration; the full-load path's event names
only records_inserted = |incoming|, the tag FULL, a hard-coded change
percentage of 100 and the duration, with the deleted/unchanged columns
omitted.  A failed run appends no LoadEvent; a fault at the audit write
itself degrades to a warning: the run still commits, with the complete sync
effect applied and no event appended. -/
theorem load_event_recording (db : PgState) (ch : ChangeSet) (lt : String)
    (stats : LoadStats) (df : List PyRow) (now t : Nat) (fa : Option Nat) :
    ((applyIncrementalLoad db ch lt stats now t fa).err = Option.none →
      fa ≠ some (stmtCountInc ch) →
      (applyIncrementalLoad db ch lt stats now t fa).db.metadata
        = db.metadata ++ [incrementalEvent stats lt ch.changePercentage t] ∧
      ∃ u, (applyIncrementalLoad db ch lt stats now t fa).trace
        = u ++ [StmtTag.metaInsert, StmtTag.commitTxn]) ∧
    ((applyIncrementalLoad db ch lt stats now t fa).err = Option.none →
      (applyIncrementalLoad db ch lt stats now t fa).db.metadata
        = db.metadata ++ [incrementalEvent stats lt ch.changePercentage t]
      ∨ (applyIncrementalLoad db ch lt stats now t fa).db.metadata
        = db.metadata) ∧
    (∀ e, (applyIncrementalLoad db ch lt stats now t fa).err = some e →
      (applyIncrementalLoad db ch lt stats now t fa).db.metadata
        = db.metadata) ∧
    ((applyFullLoad db df now t fa).err = Option.none →
      fa ≠ some (stmtCountFull df) →
      (applyFullLoad db df now t fa).db.metadata
        = db.metadata ++ [fullEvent df.length t] ∧
      ∃ u, (applyFullLoad db df now t fa).trace
        = u ++ [StmtTag.metaInsert, StmtTag.commitTxn]) ∧
    (∀ e, (applyFullLoad db df now t fa).err = some e →
      (applyFullLoad db df now t fa).db.metadata = db.metadata) ∧
    (fa = some (stmtCountInc ch) →
      (applyIncrementalLoad db ch lt stats now t fa).err = Option.none ∧
      (applyIncrementalLoad db ch lt stats now t fa).db.metadata
        = db.metadata ∧
      (applyIncrementalLoad db ch lt stats now t fa).db.flights
        = appliedIncrementalFlights db ch now) ∧
    (fa = some (stmtCountFull df) →
      (applyFullLoad db df now t fa).err = Option.none ∧
      (applyFullLoad db df now t fa).db.metadata = db.metadata ∧
      (applyFullLoad db df now t fa).db.flights = fullLoadFlights df now) := by
  obtain ⟨hN, hSF⟩ := applyIncrementalLoad_spec db ch lt stats now t fa
  obtain ⟨hN', hSF'⟩ := applyFullLoad_spec db df now t fa
  refine ⟨?_, ?_, ?_, ?_, ?_, ?_, ?_⟩
  · intro he hne
    rcases hSF with ⟨_, _, _, _, _, _, hex⟩ | ⟨e, he', _⟩
    · exact hex hne
    · rw [he'] at he; exact nomatch he
  · intro he
    rcases hSF with ⟨_, _, hmd, _⟩ | ⟨e, he', _⟩
    · exact hmd
    · rw [he'] at he; exact nomatch he
  · intro e he
    rcases hSF with ⟨he', _⟩ | ⟨e', he', hdb⟩
    · rw [he'] at he; exact nomatch he
    · rw [hdb]
  · intro he hne
    rcases hSF' with ⟨_, _, _, _, _, _, hex⟩ | ⟨e, he', _⟩
    · exact hex hne
    · rw [he'] at he; exact nomatch he
  · intro e he
    rcases hSF' with ⟨he', _⟩ | ⟨e', he', hdb⟩
    · rw [he'] at he; exact nomatch he
    · rw [hdb]
  · intro hfa
    subst hfa
    exact applyIncrementalLoad_metaFault db ch lt stats now t
  · intro hfa
    subst hfa
    exact applyFullLoad_metaFault db df now t

set_option maxRecDepth 8000 in
/-- C6 amended witness: at concrete inputs, a successful unfaulted
incremental run appends exactly the expected event; a run faulted mid-apply
appends nothing; a run faulted exactly at the audit write still commits with
nothing appended; and a successful full load appends the hard-coded FULL
event. -/
theorem load_event_recording_witness :
    (applyIncrementalLoad sampleDb sampleChanges "INCREMENTAL" sampleStats 5 1
        Option.none).db.metadata
      = sampleDb.metadata
        ++ [incrementalEvent sampleStats "INCREMENTAL"
              sampleChanges.changePercentage 1] ∧
    (applyIncrementalLoad sampleDb sampleChanges "INCREMENTAL" sampleStats 5 1
        (some 1)).db.metadata = sampleDb.metadata ∧
    (applyIncrementalLoad sampleDb sampleChanges "INCREMENTAL" sampleStats 5 1
        (some (stmtCountInc sampleChanges))).err = Option.none ∧
    (applyIncrementalLoad sampleDb sampleChanges "INCREMENTAL" sampleStats 5 1
        (some (stmtCountInc sampleChanges))).db.metadata
      = sampleDb.metadata ∧
    (applyFullLoad sampleDb [sampleRowB] 5 1 Option.none).db.metadata
      = sampleDb.metadata ++ [fullEvent 1 1] := by
  refine ⟨((load_event_recording sampleDb sampleChanges "INCREMENTAL"
      sampleStats [sampleRowB] 5 1 Option.none).1 (by decide) (by decide)).1,
    (load_event_recording sampleDb sampleChanges "INCREMENTAL" sampleStats
      [sampleRowB] 5 1 (some 1)).2.2.1 "statement 1 raised" (by decide),
    ((load_event_recording sampleDb sampleChanges "INCREMENTAL" sampleStats
      [sampleRowB] 5 1 (some (stmtCountInc sampleChanges))).2.2.2.2.2.1
      rfl).1,
    ((load_event_recording sampleDb sampleChanges "INCREMENTAL" sampleStats
      [sampleRowB] 5 1 (some (stmtCountInc sampleChanges))).2.2.2.2.2.1
      rfl).2.1,
    ((load_event_recording sampleDb sampleChanges "INCREMENTAL" sampleStats
      [sampleRowB] 5 1 Option.none).2.2.2.1 (by decide) (by decide)).1⟩

theorem filter_active_map_softDel (now : Nat) (hs : List String)
    (l : List FlightRow) :
    ((l.map (softDel now hs)).filter (fun r => r.active))
      = l.filter (fun r => r.active && decide (r.hash ∉ hs)) := by
  induction l with
  | nil => rfl
  | cons r l ih =>
    simp only [List.map_cons, List.filter_cons]
    by_cases hm : r.hash ∈ hs
    · by_cases ha : r.active = true
      · simp [softDel, hm, ha, ih]
      · simp [softDel, hm, ha, ih]
    · by_cases ha : r.active = true
      · simp [softDel, hm, ha, ih]
      · simp [softDel, hm, ha, ih]

theorem newRows_softDel (now : Nat) (hs : List String) (nrs : List HashedRow)
    (hdisj : ∀ r ∈ nrs, r.hash ∉ hs) :
    ((nrs.map (rowOfHashed now)).map (softDel now hs)).filter
        (fun r => r.active)
      = nrs.map (rowOfHashed now) := by
  rw [List.map_map]
  have hmap : nrs.map (softDel now hs ∘ rowOfHashed now)
      = nrs.map (rowOfHashed now) := by
    refine List.map_congr_left (fun r hrm => ?_)
    show softDel now hs (rowOfHashed now r) = rowOfHashed now r
    unfold softDel
    rw [if_neg]
    rintro ⟨h1, _⟩
    exact hdisj r hrm h1
  rw [hmap]
  refine List.filter_eq_self.mpr (fun a ha => ?_)
  obtain ⟨r, _, rfl⟩ := List.mem_map.mp ha
  rfl

theorem activeRows_hashes (db : PgState) :
    (activeRows db).map (·.hash)
      = (db.flights.filter (fun r => r.active)).map (·.hash) := by
  unfold activeRows
  rw [List.map_map]
  rfl

theorem detectChanges_facts (stats : LoadStats) (incoming : List PyRow)
    (existing : List HashedRow) (hne : existing ≠ []) :
    (∀ r ∈ (detectChanges stats incoming (Except.ok existing)).1.newRecords,
      r.hash ∉ (existing.map (·.hash)).toFinset) ∧
    (∀ r ∈ (detectChanges stats incoming
        (Except.ok existing)).1.deletedRecords,
      r.hash ∈ (existing.map (·.hash)).toFinset) ∧
    List.Sublist
      (detectChanges stats incoming (Except.ok existing)).1.newRecords
      (hashedDf incoming) := by
  unfold detectChanges loadExistingDataFromPostgres
  dsimp only
  rw [if_neg (isEmpty_false_of_ne_nil hne)]
  dsimp only
  refine ⟨?_, ?_, List.filter_sublist _⟩
  · intro r hr
    have h2 := (List.mem_filter.mp hr).2
    rw [decide_eq_true_eq, Finset.mem_sdiff] at h2
    exact h2.2
  · intro r hr
    have h1 := (List.mem_filter.mp hr).1
    exact List.mem_toFinset.mpr (List.mem_map.mpr ⟨r, h1, rfl⟩)

set_option maxRecDepth 8000 in
/-- C8 counterexample: claim as stated is false when the incoming set holds
two rows with equal fingerprints: starting from a store satisfying the
invariant, the full load inserts both rows as active, leaving two active rows
with the same fingerprint. -/
theorem active_uniqueness_counterexample :
    activeUnique ⟨[], []⟩ ∧
    ¬ activeUnique
      (applyFullLoad ⟨[], []⟩ [sampleRowA, sampleRowA] 0 1 Option.none).db := by
  unfold activeUnique
  constructor
  · decide
  · decide

/-- C8 amended: at most one active row per fingerprint is preserved by every
pipeline run (either apply path, any fault) provided the incoming rows'
fingerprints are pairwise distinct; with duplicate incoming fingerprints the
apply operations insert one active row per duplicate. -/
theorem active_uniqueness_preserved (db : PgState) (incoming : List PyRow)
    (now t : Nat) (fa : Option Nat) (hu : activeUnique db)
    (hnd : ((hashedDf incoming).map (·.hash)).Nodup) :
    activeUnique (transferToPostgresIncremental db incoming now t fa).db := by
  unfold transferToPostgresIncremental
  by_cases hempty : incoming.isEmpty
  · rw [if_pos hempty]; exact hu
  · rw [if_neg hempty]
    dsimp only
    by_cases hgt : (detectChanges initLoadStats incoming
        (Except.ok (activeRows db))).1.changePercentage > FULL_LOAD_THRESHOLD
    · rw [if_pos hgt]
      dsimp only
      obtain ⟨_, hSF⟩ := applyFullLoad_spec db incoming now t fa
      rcases hSF with ⟨_, hfl, _⟩ | ⟨e, _, hdb⟩
      · unfold activeUnique
        rw [hfl]
        have hall : ∀ x ∈ fullLoadFlights incoming now, x.active = true := by
          intro x hx
          obtain ⟨r, _, rfl⟩ := List.mem_map.mp hx
          rfl
        rw [List.filter_eq_self.mpr hall]
        unfold fullLoadFlights
        rw [List.map_map]
        exact hnd
      · rw [hdb]; exact hu
    · rw [if_neg hgt]
      dsimp only
      by_cases hact : activeRows db = []
      · exfalso
        apply hgt
        rw [hact]
        show (100 : Rat) > FULL_LOAD_THRESHOLD
        norm_num [FULL_LOAD_THRESHOLD]
      · obtain ⟨hNew, hDel, hSub⟩ :=
          detectChanges_facts initLoadStats incoming (activeRows db) hact
        obtain ⟨_, hSF⟩ := applyIncrementalLoad_spec db
          (detectChanges initLoadStats incoming
            (Except.ok (activeRows db))).1 "INCREMENTAL"
          (detectChanges initLoadStats incoming
            (Except.ok (activeRows db))).2 now t fa
        rcases hSF with ⟨_, hfl, _⟩ | ⟨e, _, hdb⟩
        · unfold activeUnique
          rw [hfl]
          unfold appliedIncrementalFlights
          have hdisj : ∀ r ∈ (detectChanges initLoadStats incoming
              (Except.ok (activeRows db))).1.newRecords,
              r.hash ∉ (detectChanges initLoadStats incoming
                (Except.ok (activeRows db))).1.deletedRecords.map (·.hash) := by
            intro r hr hmem
            obtain ⟨rd, hrd, heq⟩ := List.mem_map.mp hmem
            have hA := hDel rd hrd
            rw [heq] at hA
            exact hNew r hr hA
          rw [List.map_append, List.filter_append,
            filter_active_map_softDel, newRows_softDel _ _ _ hdisj,
            List.map_append]
          refine List.Nodup.append ?_ ?_ ?_
          · have hswap : db.flights.filter
                (fun r => r.active && decide (r.hash ∉
                  (detectChanges initLoadStats incoming
                    (Except.ok (activeRows db))).1.deletedRecords.map (·.hash)))
                = (db.flights.filter (fun r => r.active)).filter
                    (fun r => decide (r.hash ∉
                      (detectChanges initLoadStats incoming
                        (Except.ok
                          (activeRows db))).1.deletedRecords.map (·.hash))) := by
              rw [List.filter_filter]
              exact List.filter_congr (fun a _ => Bool.and_comm _ _)
            rw [hswap]
            exact hu.sublist ((List.filter_sublist _).map _)
          · rw [List.map_map]
            exact hnd.sublist (hSub.map _)
          · intro a haA haB
            obtain ⟨rowA, hrowA, haeq⟩ := List.mem_map.mp haA
            have h1 := List.mem_filter.mp hrowA
            have hactive : rowA.active = true := by
              have h2 := h1.2
              rw [Bool.and_eq_true] at h2
              exact h2.1
            obtain ⟨rB, hrB, hBeq⟩ := List.mem_map.mp haB
            obtain ⟨rC, hrC, hCeq⟩ := List.mem_map.mp hrB
            have hmemA : a ∈ ((activeRows db).map (·.hash)).toFinset := by
              rw [activeRows_hashes]
              exact List.mem_toFinset.mpr (List.mem_map.mpr
                ⟨rowA, List.mem_filter.mpr ⟨h1.1, hactive⟩, haeq⟩)
            apply hNew rC hrC
            have hhash : rC.hash = a := by
              rw [← hBeq, ← hCeq]
              rfl
            rw [hhash]
            exact hmemA
        · rw [hdb]; exact hu

set_option maxRecDepth 8000 in
/-- C8 amended witness: the preserved invariant at a concrete run with
distinct incoming fingerprints. -/
theorem active_uniqueness_preserved_witness :
    activeUnique (transferToPostgresIncremental sampleDb [sampleRowA] 0 1
      Option.none).db :=
  active_uniqueness_preserved sampleDb [sampleRowA] 0 1 Option.none
    (by unfold activeUnique; decide) (by decide)

/-- C9: every LoadEvent appended by an incremental-path run reports
`records_updated = 0`: the loader's stats initialize `updated` to zero,
`detect_changes` never modifies it, and the incremental metadata INSERT writes
it verbatim. -/
theorem records_updated_always_zero (db : PgState) (incoming : List PyRow)
    (now t : Nat) (fa : Option Nat)
    (hinc : (transferToPostgresIncremental db incoming now t fa).loadType
      = "INCREMENTAL") :
    ∀ ev ∈ (transferToPostgresIncremental db incoming now t fa).db.metadata,
      ev ∈ db.metadata ∨ ev.recordsUpdated = some 0 := by
  unfold transferToPostgresIncremental at hinc ⊢
  by_cases hempty : incoming.isEmpty
  · rw [if_pos hempty] at hinc
    dsimp only at hinc
    exact absurd hinc (by decide)
  · rw [if_neg hempty] at hinc ⊢
    dsimp only at hinc ⊢
    by_cases hgt : (detectChanges initLoadStats incoming
        (Except.ok (activeRows db))).1.changePercentage > FULL_LOAD_THRESHOLD
    · rw [if_pos hgt] at hinc
      dsimp only at hinc
      exact absurd hinc (by decide)
    · rw [if_neg hgt] at hinc ⊢
      dsimp only
      intro ev hev
      obtain ⟨_, hSF⟩ := applyIncrementalLoad_spec db
        (detectChanges initLoadStats incoming
          (Except.ok (activeRows db))).1 "INCREMENTAL"
        (detectChanges initLoadStats incoming
          (Except.ok (activeRows db))).2 now t fa
      rcases hSF with ⟨_, _, hmd, _⟩ | ⟨e, _, hdb⟩
      · rcases hmd with h | h
        · rw [h] at hev
          rcases List.mem_append.mp hev with hold | hnew
          · exact Or.inl hold
          · right
            rw [List.mem_singleton] at hnew
            rw [hnew]
            show some (detectChanges initLoadStats incoming
              (Except.ok (activeRows db))).2.updated = some 0
            rw [detectChanges_updated]
            rfl
        · rw [h] at hev; exact Or.inl hev
      · rw [hdb] at hev; exact Or.inl hev

set_option maxRecDepth 8000 in
unseal Rat.mul Rat.inv in
/-- C9 witness: a concrete incremental run appends an event whose
`records_updated` is zero. -/
theorem records_updated_always_zero_witness :
    (transferToPostgresIncremental sampleActiveDb [sampleRowA] 0 1
        Option.none).loadType = "INCREMENTAL" ∧
    incrementalEvent ⟨0, 0, 0, 1⟩ "INCREMENTAL" 0 1
      ∈ (transferToPostgresIncremental sampleActiveDb [sampleRowA] 0 1
          Option.none).db.metadata ∧
    (incrementalEvent ⟨0, 0, 0, 1⟩ "INCREMENTAL" 0 1 ∈ sampleActiveDb.metadata
      ∨ (incrementalEvent ⟨0, 0, 0, 1⟩ "INCREMENTAL" 0 1).recordsUpdated
        = some 0) :=
  ⟨by decide, by decide,
   records_updated_always_zero sampleActiveDb [sampleRowA] 0 1 Option.none
     (by decide) _ (by decide)⟩

end FlightSync
